import Mathlib

/-!
Verification of the NetraDrive client core (shallow embedding).

The definitions below are transcribed from the TypeScript source:
* `src/lib/api.ts` — token storage, `api.refreshToken`, `api.request`,
  and the module-level `refreshTokenPromise` single-flight slot;
* `src/App.tsx` — the `useUploader` hook (upload queue) and the
  `Modals.getDisabledIds` folder-tree guard.

Network I/O is made explicit: each fetch result that the code branches on
becomes a parameter (or an event of a small-step machine), and counters
record how many network calls each path performs.
-/

namespace NetraDrive

/-! ### Token storage (api.ts `getTokens` / `setTokens` / `clearTokens`)

localStorage holds at most one access and one refresh credential; `none`
models an absent key. -/

structure Tokens where
  access : Option String
  refresh : Option String
deriving DecidableEq, Repr

/-- Outcome of the `fetch` to `/auth/refresh_token` inside `api.refreshToken`
(api.ts 106–110): `ok a r` is an ok response whose JSON body carries
`access_token = a` and `refresh_token = r`; `notOk` is a response with
`!response.ok` (line 111 throws); `netError` is a rejected fetch. -/
inductive RefreshResponse where
  | ok (access refresh : String)
  | notOk
  | netError
deriving DecidableEq, Repr

/-- Result of one run of `api.refreshToken`: the returned boolean, the token
pair left in storage, and the number of network calls made to the refresh
endpoint. -/
structure RefreshResult where
  success : Bool
  tokens : Tokens
  refreshCalls : Nat
deriving DecidableEq, Repr

/-- `api.refreshToken` (api.ts 102–119).  With no stored refresh credential it
returns `false` before any fetch (line 104).  Otherwise it performs the fetch;
a non-ok response throws (line 111) and lands in the catch, as does a network
error — both return `false` with storage untouched.  Only an ok response
reaches `setTokens` (line 113), which replaces both credentials. -/
def refreshToken (st : Tokens) (resp : RefreshResponse) : RefreshResult :=
  match st.refresh with
  | none => ⟨false, st, 0⟩
  | some _ =>
    match resp with
    | .ok a r => ⟨true, ⟨some a, some r⟩, 1⟩
    | .notOk => ⟨false, st, 1⟩
    | .netError => ⟨false, st, 1⟩

/-- An HTTP response as far as `api.request` inspects it: only the status
code is branched on (api.ts line 84). -/
structure HttpResponse where
  status : Nat
deriving DecidableEq, Repr

/-- Environment of one `api.request` call: the response the first
`makeRequest` would produce, the behaviour of the refresh endpoint, and the
response a replayed `makeRequest` would produce. -/
structure RequestEnv where
  firstResponse : HttpResponse
  refreshResponse : RefreshResponse
  replayResponse : HttpResponse
deriving DecidableEq, Repr

/-- Observable outcome of one `api.request` call: the returned response, the
token pair left in storage, how many times the original endpoint was fetched
(`makeRequest` invocations), how many times the refresh endpoint was fetched,
and whether `window.location.reload()` was triggered (session invalidated). -/
structure RequestResult where
  response : HttpResponse
  tokens : Tokens
  requestCalls : Nat
  refreshCalls : Nat
  reloaded : Bool
deriving DecidableEq, Repr

/-- `api.request` (api.ts 66–101), sequential case (the concurrent
single-flight slot is modelled separately below; with a single caller the
slot is created and consumed within this call, so awaiting it equals calling
`refreshToken` directly).  Line 84 guards on `status === 401` and a stored
refresh credential; on refresh success line 94 replays the original request
exactly once and line 100 returns whatever that replay produced; on refresh
failure lines 96–97 clear both tokens and reload; otherwise the first
response is returned unmodified. -/
def request (st : Tokens) (env : RequestEnv) : RequestResult :=
  let response := env.firstResponse
  if response.status = 401 ∧ st.refresh ≠ none then
    let res := refreshToken st env.refreshResponse
    if res.success then
      ⟨env.replayResponse, res.tokens, 2, res.refreshCalls, false⟩
    else
      ⟨response, ⟨none, none⟩, 1, res.refreshCalls, true⟩
  else
    ⟨response, st, 1, 0, false⟩

/-- C8: refresh coordinator outcome contract.  `refreshToken` returns `false`
with zero network calls when no refresh credential is stored; on a failing
refresh request (non-ok response or transport error) it returns `false` and
leaves the stored credentials unchanged; only on a successful response does
it replace both credentials and return `true`. -/
theorem refreshToken_contract (st : Tokens) (resp : RefreshResponse) :
    (st.refresh = none → refreshToken st resp = ⟨false, st, 0⟩)
    ∧ ((resp = .notOk ∨ resp = .netError) →
        (refreshToken st resp).success = false ∧ (refreshToken st resp).tokens = st)
    ∧ (∀ a r, st.refresh ≠ none → resp = .ok a r →
        refreshToken st resp = ⟨true, ⟨some a, some r⟩, 1⟩) := by
  obtain ⟨acc, ref⟩ := st
  refine ⟨?_, ?_, ?_⟩
  · intro h
    subst h
    rfl
  · rintro (h | h) <;> subst h <;> cases ref <;> simp [refreshToken]
  · intro a r href h
    subst h
    cases ref with
    | none => exact absurd rfl href
    | some _ => rfl

/-- Witness for C8: with an expired-but-present refresh credential and a
non-ok refresh response, `refreshToken` fails without mutating storage. -/
theorem refreshToken_contract_witness :
    (refreshToken ⟨some "acc", some "ref"⟩ .notOk).success = false
    ∧ (refreshToken ⟨some "acc", some "ref"⟩ .notOk).tokens = ⟨some "acc", some "ref"⟩ :=
  (refreshToken_contract ⟨some "acc", some "ref"⟩ .notOk).2.1 (Or.inl rfl)

/-- C2: replay-once contract of `api.request`.  When the first response is
401: with no refresh credential the 401 is returned unmodified with no
refresh attempt and no replay; with a refresh credential and a successful
refresh, the original request is re-issued exactly once (two `makeRequest`
fetches in total, one refresh fetch) and the replay's response is returned
as-is — in particular also when the replay is again 401, since the
definition never inspects `replayResponse`. -/
theorem request_replayOnce (st : Tokens) (env : RequestEnv)
    (h401 : env.firstResponse.status = 401) :
    (st.refresh = none → request st env = ⟨env.firstResponse, st, 1, 0, false⟩)
    ∧ (∀ a r, st.refresh ≠ none → env.refreshResponse = .ok a r →
        request st env = ⟨env.replayResponse, ⟨some a, some r⟩, 2, 1, false⟩) := by
  constructor
  · intro h
    simp [request, h]
  · intro a r href h
    obtain ⟨acc, ref⟩ := st
    cases ref with
    | none => exact absurd rfl href
    | some _ => simp [request, h401, h, refreshToken]

/-- Witness for C2: the first response is 401, refresh succeeds, and the
replay is again 401; the call returns the replayed 401 having fetched the
original endpoint twice and the refresh endpoint once — no further refresh
or replay. -/
theorem request_replayOnce_witness :
    request ⟨some "acc", some "ref"⟩ ⟨⟨401⟩, .ok "na" "nr", ⟨401⟩⟩
      = ⟨⟨401⟩, ⟨some "na", some "nr"⟩, 2, 1, false⟩ :=
  (request_replayOnce ⟨some "acc", some "ref"⟩ ⟨⟨401⟩, .ok "na" "nr", ⟨401⟩⟩ rfl).2
    "na" "nr" (by simp) rfl

/-! ### Single-flight refresh (api.ts 48, 84–91)

`let refreshTokenPromise: Promise<boolean> | null = null` is a module-level
slot shared by every concurrent `api.request` call.  The block at lines
84–91 runs without any intervening `await`, so on the single-threaded event
loop each caller atomically checks the slot, creates the promise if the slot
is null (which immediately issues the one network call via
`this.refreshToken()`), and then suspends on the shared promise.  The
`.finally` handler (lines 86–88) nulls the slot when the outcome is known,
before any awaiting caller resumes.  The machine below has one event per
suspension point of that code. -/

/-- Where one `api.request` caller stands inside the 401-recovery block:
`got401` — it has just received a 401 while a refresh credential exists and
is about to run lines 84–91; `awaiting g` — it is suspended on the shared
promise `g` (line 91); `done b` — it has observed the refresh outcome `b`. -/
inductive CallerPhase where
  | got401
  | awaiting (g : Nat)
  | done (b : Bool)
deriving DecidableEq, Repr

/-- Shared state of `n` concurrent `api.request` callers: the
`refreshTokenPromise` slot (promises are numbered by `nextGen`), the settled
value of each promise, the number of network calls made to the refresh
endpoint, and each caller's phase. -/
structure FlightState (n : Nat) where
  slot : Option Nat
  nextGen : Nat
  results : Nat → Option Bool
  refreshCalls : Nat
  callers : Fin n → CallerPhase

/-- Events of the single-flight machine: `observe i` — caller `i` resumes
with its 401 and runs the atomic slot check of lines 84–91; `resolve b` —
the pending refresh settles with outcome `b` and the `.finally` handler
nulls the slot; `wake i` — suspended caller `i` resumes from `await
refreshTokenPromise` with the settled value. -/
inductive FlightEvent (n : Nat) where
  | observe (i : Fin n)
  | resolve (b : Bool)
  | wake (i : Fin n)

/-- Initial state: slot null, no refresh call made yet, every caller holding
a fresh 401. -/
def flightInit (n : Nat) : FlightState n :=
  ⟨none, 0, fun _ => none, 0, fun _ => .got401⟩

/-- One step of the single-flight machine.  `observe`: if the slot is null
the caller stores a fresh promise there and the network call to the refresh
endpoint is issued (lines 85–89); either way the caller then awaits the slot
promise (line 91).  `resolve`: the pending promise settles and `.finally`
resets the slot to null.  `wake`: a caller suspended on a settled promise
resumes with its value. -/
def flightStep {n : Nat} (s : FlightState n) : FlightEvent n → Option (FlightState n)
  | .observe i =>
    match s.callers i with
    | .got401 =>
      match s.slot with
      | none => some { s with
          slot := some s.nextGen
          nextGen := s.nextGen + 1
          refreshCalls := s.refreshCalls + 1
          callers := Function.update s.callers i (.awaiting s.nextGen) }
      | some g => some { s with callers := Function.update s.callers i (.awaiting g) }
    | _ => none
  | .resolve b =>
    match s.slot with
    | some g => some { s with
        results := fun g' => if g' = g then some b else s.results g'
        slot := none }
    | none => none
  | .wake i =>
    match s.callers i with
    | .awaiting g =>
      match s.results g with
      | some b => some { s with callers := Function.update s.callers i (.done b) }
      | none => none
    | _ => none

/-- Run a list of events from a state; `none` if an event is not enabled. -/
def flightRun {n : Nat} (s : FlightState n) : List (FlightEvent n) → Option (FlightState n)
  | [] => some s
  | e :: es =>
    match flightStep s e with
    | some s' => flightRun s' es
    | none => none

theorem flightRun_append {n : Nat} (s : FlightState n) (l₁ l₂ : List (FlightEvent n)) :
    flightRun s (l₁ ++ l₂) =
      match flightRun s l₁ with
      | some s' => flightRun s' l₂
      | none => none := by
  induction l₁ generalizing s with
  | nil => rfl
  | cons e es ih =>
    show (match flightStep s e with
          | some s' => flightRun s' (es ++ l₂)
          | none => none) =
        match (match flightStep s e with
               | some s' => flightRun s' es
               | none => none) with
        | some s' => flightRun s' l₂
        | none => none
    cases flightStep s e with
    | none => rfl
    | some s' => exact ih s'

theorem flightRun_append_some {n : Nat} {s s' : FlightState n} {l₁ : List (FlightEvent n)}
    (h : flightRun s l₁ = some s') (l₂ : List (FlightEvent n)) :
    flightRun s (l₁ ++ l₂) = flightRun s' l₂ := by
  rw [flightRun_append, h]

theorem flightRun_observe_batch {n : Nat} (l : List (Fin n)) (s : FlightState n) (g : Nat)
    (hslot : s.slot = some g) (hphase : ∀ i ∈ l, s.callers i = .got401) (hnd : l.Nodup) :
    flightRun s (l.map .observe) =
      some ⟨some g, s.nextGen, s.results, s.refreshCalls,
            fun i => if i ∈ l then .awaiting g else s.callers i⟩ := by
  induction l generalizing s with
  | nil =>
    obtain ⟨sl, ng, rs, rc, cs⟩ := s
    simp only at hslot
    subst hslot
    simp [flightRun]
  | cons a l ih =>
    obtain ⟨hnda, hndl⟩ := List.nodup_cons.mp hnd
    have ha : s.callers a = .got401 := hphase a (List.mem_cons_self a l)
    have hstep : flightStep s (.observe a) =
        some { s with callers := Function.update s.callers a (.awaiting g) } := by
      simp [flightStep, ha, hslot]
    have hphase' : ∀ i ∈ l,
        ({ s with callers := Function.update s.callers a (.awaiting g) } :
          FlightState n).callers i = CallerPhase.got401 := by
      intro i hi
      have hne : i ≠ a := fun h => hnda (h ▸ hi)
      simpa [Function.update, hne] using hphase i (List.mem_cons_of_mem a hi)
    have ihs := ih { s with callers := Function.update s.callers a (.awaiting g) }
      hslot hphase' hndl
    have hfun : (fun i => if i ∈ l then CallerPhase.awaiting g
        else Function.update s.callers a (CallerPhase.awaiting g) i)
        = fun i => if i ∈ a :: l then CallerPhase.awaiting g else s.callers i := by
      funext i
      by_cases hil : i ∈ l
      · simp [hil, List.mem_cons]
      · by_cases hia : i = a
        · subst hia
          simp [hil, Function.update]
        · simp [hil, hia, Function.update, List.mem_cons]
    simp only [List.map_cons, flightRun, hstep, ihs]
    exact congrArg some (FlightState.mk.injEq .. |>.mpr ⟨rfl, rfl, rfl, rfl, hfun⟩)

theorem flightRun_wake_batch {n : Nat} (l : List (Fin n)) (s : FlightState n) (b : Bool)
    (hphase : ∀ i ∈ l, ∃ g, s.callers i = .awaiting g ∧ s.results g = some b)
    (hnd : l.Nodup) :
    flightRun s (l.map .wake) =
      some ⟨s.slot, s.nextGen, s.results, s.refreshCalls,
            fun i => if i ∈ l then .done b else s.callers i⟩ := by
  induction l generalizing s with
  | nil =>
    obtain ⟨sl, ng, rs, rc, cs⟩ := s
    simp [flightRun]
  | cons a l ih =>
    obtain ⟨hnda, hndl⟩ := List.nodup_cons.mp hnd
    obtain ⟨g, hag, hgb⟩ := hphase a (List.mem_cons_self a l)
    have hstep : flightStep s (.wake a) =
        some { s with callers := Function.update s.callers a (.done b) } := by
      simp [flightStep, hag, hgb]
    have hphase' : ∀ i ∈ l, ∃ g',
        ({ s with callers := Function.update s.callers a (.done b) } :
          FlightState n).callers i = CallerPhase.awaiting g'
        ∧ ({ s with callers := Function.update s.callers a (.done b) } :
            FlightState n).results g' = some b := by
      intro i hi
      have hne : i ≠ a := fun h => hnda (h ▸ hi)
      obtain ⟨g', h1, h2⟩ := hphase i (List.mem_cons_of_mem a hi)
      exact ⟨g', by simpa [Function.update, hne] using h1, h2⟩
    have ihs := ih { s with callers := Function.update s.callers a (.done b) }
      hphase' hndl
    have hfun : (fun i => if i ∈ l then CallerPhase.done b
        else Function.update s.callers a (CallerPhase.done b) i)
        = fun i => if i ∈ a :: l then CallerPhase.done b else s.callers i := by
      funext i
      by_cases hil : i ∈ l
      · simp [hil, List.mem_cons]
      · by_cases hia : i = a
        · subst hia
          simp [hil, Function.update]
        · simp [hil, hia, Function.update, List.mem_cons]
    simp only [List.map_cons, flightRun, hstep, ihs]
    exact congrArg some (FlightState.mk.injEq .. |>.mpr ⟨rfl, rfl, rfl, rfl, hfun⟩)

/-- C1: single-flight refresh.  `n` callers all receive a 401 while a refresh
credential exists (phase `got401`) and all run the slot check before the
pending refresh settles; then the refresh settles once with outcome `b` and
the callers resume.  Exactly one network call to the refresh endpoint is
made, every caller observes the same outcome `b`, and the
`refreshTokenPromise` slot is empty at the end — regardless of success or
failure — so a later expiry can start a new refresh. -/
theorem singleFlightRefresh {n : Nat} (obs wakes : List (Fin n)) (b : Bool)
    (hn : 0 < n) (hobsN : obs.Nodup) (hobsC : ∀ i, i ∈ obs)
    (hwN : wakes.Nodup) (hwC : ∀ i, i ∈ wakes) :
    ∃ final,
      flightRun (flightInit n) (obs.map .observe ++ (.resolve b :: wakes.map .wake))
        = some final
      ∧ final.refreshCalls = 1
      ∧ final.slot = none
      ∧ ∀ i, final.callers i = .done b := by
  obtain ⟨a, l, rfl⟩ : ∃ a l, obs = a :: l := by
    cases obs with
    | nil => exact absurd (hobsC ⟨0, hn⟩) (List.not_mem_nil _)
    | cons a l => exact ⟨a, l, rfl⟩
  obtain ⟨hnda, hndl⟩ := List.nodup_cons.mp hobsN
  -- the first caller to run the slot check creates the promise and issues
  -- the single network call
  have hstep1 : flightStep (flightInit n) (.observe a) =
      some ⟨some 0, 1, fun _ => none, 1,
            Function.update (fun _ => CallerPhase.got401) a (CallerPhase.awaiting 0)⟩ := rfl
  have hphase1 : ∀ i ∈ l,
      (Function.update (fun _ => CallerPhase.got401) a (CallerPhase.awaiting 0) :
        Fin n → CallerPhase) i = CallerPhase.got401 := by
    intro i hi
    have hne : i ≠ a := fun h => hnda (h ▸ hi)
    simp [Function.update, hne]
  -- the remaining callers find the slot occupied and share the promise
  have hobsrest : flightRun
      (⟨some 0, 1, fun _ => none, 1,
        Function.update (fun _ => CallerPhase.got401) a (CallerPhase.awaiting 0)⟩ :
        FlightState n) (l.map .observe)
      = some ⟨some 0, 1, fun _ => none, 1,
          fun i => if i ∈ l then CallerPhase.awaiting 0
                   else Function.update (fun _ => CallerPhase.got401) a
                     (CallerPhase.awaiting 0) i⟩ :=
    flightRun_observe_batch l _ 0 rfl hphase1 hndl
  have hobsAll : flightRun (flightInit n) ((a :: l).map .observe)
      = some ⟨some 0, 1, fun _ => none, 1,
          fun i => if i ∈ l then CallerPhase.awaiting 0
                   else Function.update (fun _ => CallerPhase.got401) a
                     (CallerPhase.awaiting 0) i⟩ := by
    simp only [List.map_cons, flightRun, hstep1, hobsrest]
  -- the pending promise settles; `.finally` resets the slot
  have hres : flightStep
      (⟨some 0, 1, fun _ => none, 1,
        fun i => if i ∈ l then CallerPhase.awaiting 0
                 else Function.update (fun _ => CallerPhase.got401) a
                   (CallerPhase.awaiting 0) i⟩ : FlightState n)
      (.resolve b) =
      some ⟨none, 1, fun g' => if g' = 0 then some b else none, 1,
        fun i => if i ∈ l then CallerPhase.awaiting 0
                 else Function.update (fun _ => CallerPhase.got401) a
                   (CallerPhase.awaiting 0) i⟩ := rfl
  have hphase3 : ∀ i ∈ wakes, ∃ g,
      ((⟨none, 1, fun g' => if g' = 0 then some b else none, 1,
        fun i => if i ∈ l then CallerPhase.awaiting 0
                 else Function.update (fun _ => CallerPhase.got401) a
                   (CallerPhase.awaiting 0) i⟩ :
          FlightState n)).callers i = CallerPhase.awaiting g
      ∧ ((⟨none, 1, fun g' => if g' = 0 then some b else none, 1,
          fun i => if i ∈ l then CallerPhase.awaiting 0
                   else Function.update (fun _ => CallerPhase.got401) a
                     (CallerPhase.awaiting 0) i⟩ :
            FlightState n)).results g = some b := by
    intro i _
    refine ⟨0, ?_, by simp⟩
    by_cases hil : i ∈ l
    · simp [hil]
    · have hia : i = a := by
        have := hobsC i
        rw [List.mem_cons] at this
        tauto
      subst hia
      simp [hil, Function.update]
  have hwakes : flightRun
      (⟨none, 1, fun g' => if g' = 0 then some b else none, 1,
        fun i => if i ∈ l then CallerPhase.awaiting 0
                 else Function.update (fun _ => CallerPhase.got401) a
                   (CallerPhase.awaiting 0) i⟩ : FlightState n)
      (wakes.map .wake)
      = some ⟨none, 1, fun g' => if g' = 0 then some b else none, 1,
          fun i => if i ∈ wakes then CallerPhase.done b
                   else if i ∈ l then CallerPhase.awaiting 0
                   else Function.update (fun _ => CallerPhase.got401) a
                     (CallerPhase.awaiting 0) i⟩ :=
    flightRun_wake_batch wakes _ b hphase3 hwN
  have hrun : flightRun (flightInit n)
      ((a :: l).map .observe ++ (.resolve b :: wakes.map .wake))
      = some ⟨none, 1, fun g' => if g' = 0 then some b else none, 1,
          fun i => if i ∈ wakes then CallerPhase.done b
                   else if i ∈ l then CallerPhase.awaiting 0
                   else Function.update (fun _ => CallerPhase.got401) a
                     (CallerPhase.awaiting 0) i⟩ := by
    rw [flightRun_append_some hobsAll]
    simp only [flightRun, hres]
    exact hwakes
  refine ⟨_, hrun, rfl, rfl, ?_⟩
  intro i
  simp [hwC i]

/-- Witness for C1: two concurrent callers, refresh succeeding; one refresh
call, both callers done with `true`, slot reset. -/
theorem singleFlightRefresh_witness :
    ∃ final,
      flightRun (flightInit 2)
        ([0, 1].map FlightEvent.observe ++ (.resolve true :: [1, 0].map .wake))
        = some final
      ∧ final.refreshCalls = 1
      ∧ final.slot = none
      ∧ ∀ i, final.callers i = .done true :=
  singleFlightRefresh [0, 1] [1, 0] true (by decide) (by decide) (by decide)
    (by decide) (by decide)

/-! ### Upload queue (`useUploader`, App.tsx 66–197; second variant 2839–2986)

State of the hook: `uploads : UploadItem[]` plus the set of live `xhr`
transfers.  The queue evolves through the handlers of the hook:
`uploadFiles` (enqueue), the `processQueue` callback (start of the next
transfer and, after the `await`, the completion/failure continuation),
the per-transfer progress callback, `cancelUpload`, and the 5-second
eviction timer.  Each handler becomes one event of a small-step machine.
The settlement of a transfer promise and the `then`/`catch` continuation
of `processQueue` form a single event: on the JS event loop the `await`
continuation is a microtask that runs before any other task can
intervene. -/

inductive UploadStatus where
  | queued
  | uploading
  | complete
  | error
  | cancelled
deriving DecidableEq, Repr

/-- The fields of a JS `File` object the uploader reads: `name`, `size`
(bytes) and `type` (MIME type string). -/
structure FileMeta where
  name : String
  size : Nat
  type : String
deriving DecidableEq, Repr

/-- An `UploadItem` (types.ts 99–106).  `id: Math.random()` is modelled by a
counter — the source uses the number only as a unique key.  `xhr` records
whether the abort handle has been attached (it is, exactly when
`processQueue` has started this item's transfer). -/
structure UploadItem where
  id : Nat
  file : FileMeta
  progress : Nat
  status : UploadStatus
  folderId : Option String
  xhr : Bool
deriving DecidableEq, Repr

/-- `const maxFileSize = 1 * 1024 * 1024 * 1024; // 1GB` (App.tsx 72). -/
def maxFileSize : Nat := 1 * 1024 * 1024 * 1024

/-- Result of the `uploadFiles` loop: the accepted items (in file order),
the names reported through `toast.error` as oversized, and the next fresh
id. -/
structure EnqueueOutcome where
  newUploads : List UploadItem
  rejected : List String
  nextId : Nat
deriving DecidableEq, Repr

/-- The `for (const file of files)` loop of `uploadFiles` (App.tsx 74–87,
size-only variant): a file strictly over `maxFileSize` is reported and
skipped (`continue`); any other file becomes a fresh item with
`progress: 0, status: "queued"`. -/
def mkUploads (folderId : Option String) : List FileMeta → Nat → EnqueueOutcome
  | [], ctr => ⟨[], [], ctr⟩
  | f :: fs, ctr =>
    if maxFileSize < f.size then
      let r := mkUploads folderId fs ctr
      ⟨r.newUploads, f.name :: r.rejected, r.nextId⟩
    else
      let r := mkUploads folderId fs (ctr + 1)
      ⟨⟨ctr, f, 0, .queued, folderId, false⟩ :: r.newUploads, r.rejected, r.nextId⟩

/-- `allowedTypes` of the second `uploadFiles` variant (App.tsx 2846–2856). -/
def allowedTypes : List String :=
  ["image/", "video/", "audio/", "text/", "application/pdf", "application/zip",
   "application/x-zip-compressed", "application/json", "application/javascript"]

/-- Result of the allow-list `uploadFiles` loop: accepted items, names
rejected for size, names rejected for type, next fresh id. -/
structure EnqueueOutcomeA where
  newUploads : List UploadItem
  sizeRejected : List String
  typeRejected : List String
  nextId : Nat
deriving DecidableEq, Repr

/-- The loop of the allow-list `uploadFiles` variant (App.tsx 2858–2879):
after the size check, a file is skipped with a warning iff
`!allowedTypes.some((type) => file.type.startsWith(type)) && file.type !== ""`
(App.tsx 2864–2867); in particular an empty MIME type never fails the type
check. -/
def mkUploadsAllow (folderId : Option String) : List FileMeta → Nat → EnqueueOutcomeA
  | [], ctr => ⟨[], [], [], ctr⟩
  | f :: fs, ctr =>
    if maxFileSize < f.size then
      let r := mkUploadsAllow folderId fs ctr
      ⟨r.newUploads, f.name :: r.sizeRejected, r.typeRejected, r.nextId⟩
    else if (!allowedTypes.any fun t => f.type.startsWith t) && f.type != "" then
      let r := mkUploadsAllow folderId fs ctr
      ⟨r.newUploads, r.sizeRejected, f.name :: r.typeRejected, r.nextId⟩
    else
      let r := mkUploadsAllow folderId fs (ctr + 1)
      ⟨⟨ctr, f, 0, .queued, folderId, false⟩ :: r.newUploads, r.sizeRejected,
        r.typeRejected, r.nextId⟩

/-- Lifecycle of one `api.uploadFile` xhr as the queue sees it: in flight,
or aborted (by `cancelUpload`) with the rejection not yet delivered to the
`catch` of `processQueue`.  A settled-and-handled transfer is removed. -/
inductive TransferState where
  | inFlight
  | aborted
deriving DecidableEq, Repr

/-- State of the `useUploader` hook: the `uploads` array, the live
transfers keyed by item id, and the fresh-id counter. -/
structure QueueState where
  items : List UploadItem
  transfers : List (Nat × TransferState)
  counter : Nat
deriving DecidableEq, Repr

def getT : List (Nat × TransferState) → Nat → Option TransferState
  | [], _ => none
  | p :: rest, id => if p.1 = id then some p.2 else getT rest id

def setT (ts : List (Nat × TransferState)) (id : Nat) (v : TransferState) :
    List (Nat × TransferState) :=
  match ts with
  | [] => [(id, v)]
  | p :: rest => if p.1 = id then (id, v) :: rest else p :: setT rest id v

def removeT : List (Nat × TransferState) → Nat → List (Nat × TransferState)
  | [], _ => []
  | p :: rest, id => if p.1 = id then removeT rest id else p :: removeT rest id

/-- The exact message of the abort rejection (api.ts 240–242), which the
`catch` of `processQueue` compares against (App.tsx 147). -/
def cancelledMsg : String := "Upload cancelled."

/-- The `catch` block of `processQueue` (App.tsx 146–162): a rejection whose
message is `"Upload cancelled."` only emits a toast; any other failure sets
the item's status to `error`. -/
def uploadCatch (id : Nat) (msg : String) (items : List UploadItem) : List UploadItem :=
  if msg = cancelledMsg then items
  else items.map fun u => if u.id = id then { u with status := .error } else u

def isTerminal : UploadStatus → Bool
  | .complete => true
  | .error => true
  | .cancelled => true
  | _ => false

/-- How a transfer promise settles when it has not been aborted: `okResponse`
— the xhr loaded and `res.ok` held; `failure msg` — either the xhr errored
(message `"Upload failed."`, api.ts 239) or it loaded with `!res.ok` and
`errorData.detail` became the thrown message (App.tsx 134–136). -/
inductive SettleOutcome where
  | okResponse
  | failure (msg : String)
deriving DecidableEq, Repr

/-- Events of the upload queue:
* `enqueue files folderId` — a call to `uploadFiles` (App.tsx 70–94);
* `processStep` — one run of the synchronous prefix of `processQueue`
  (App.tsx 108–130): pick the first queued item if any, mark it uploading,
  start its transfer and attach the xhr (the `useEffect` at 165–170 fires
  it whenever the queue changes);
* `progressUpdate id p` — the progress callback of a live transfer
  (App.tsx 121–125);
* `cancel id` — a call to `cancelUpload` (App.tsx 96–106);
* `settle id o` — a non-aborted transfer settles and the continuation of
  `processQueue` (App.tsx 132–162) runs;
* `settleAborted id` — an aborted transfer delivers its
  `"Upload cancelled."` rejection to the `catch`;
* `evict ids` — the 5-second timer drops items that reached a terminal
  state (App.tsx 172–187). -/
inductive QEvent where
  | enqueue (files : List FileMeta) (folderId : Option String)
  | processStep
  | progressUpdate (id : Nat) (p : Nat)
  | cancel (id : Nat)
  | settle (id : Nat) (outcome : SettleOutcome)
  | settleAborted (id : Nat)
  | evict (ids : List Nat)
deriving DecidableEq, Repr

/-- One step of the upload-queue machine; `none` when the event is not
enabled in this state (e.g. a settlement for a transfer that is not live). -/
def step (s : QueueState) : QEvent → Option QueueState
  | .enqueue files folderId =>
    -- uploadFiles: validate, then `setUploads(prev => [...prev, ...newUploads])`
    let r := mkUploads folderId files s.counter
    some ⟨s.items ++ r.newUploads, s.transfers, r.nextId⟩
  | .processStep =>
    -- const nextUpload = uploads.find(u => u.status === "queued"); if none, return
    match s.items.find? fun u => u.status == UploadStatus.queued with
    | none => some s
    | some nu =>
      -- mark it uploading, start the transfer, attach the xhr (108–130);
      -- note: no check that another item is already uploading
      some ⟨s.items.map fun u =>
              if u.id = nu.id then { u with status := .uploading, xhr := true } else u,
            setT s.transfers nu.id .inFlight, s.counter⟩
  | .progressUpdate id p =>
    match getT s.transfers id with
    | some .inFlight =>
      some { s with items := s.items.map fun u =>
               if u.id = id then { u with progress := p } else u }
    | _ => none
  | .cancel id =>
    -- cancelUpload: only an item carrying an xhr is touched (96–106)
    some ⟨s.items.map fun u =>
            if u.id = id ∧ u.xhr then { u with status := .cancelled } else u,
          if s.items.any fun u => u.id == id && u.xhr then
            match getT s.transfers id with
            | some .inFlight => setT s.transfers id .aborted
            | _ => s.transfers
          else s.transfers,
          s.counter⟩
  | .settle id outcome =>
    match getT s.transfers id with
    | some .inFlight =>
      match outcome with
      | .okResponse =>
        -- success: status complete, progress forced to 100 (138–145)
        some ⟨s.items.map fun u =>
                if u.id = id then { u with status := .complete, progress := 100 } else u,
              removeT s.transfers id, s.counter⟩
      | .failure msg =>
        some ⟨uploadCatch id msg s.items, removeT s.transfers id, s.counter⟩
    | _ => none
  | .settleAborted id =>
    match getT s.transfers id with
    | some .aborted =>
      some ⟨uploadCatch id cancelledMsg s.items, removeT s.transfers id, s.counter⟩
    | _ => none
  | .evict ids =>
    -- the timer only collects items already in a terminal state (172–187)
    if s.items.all fun u => !(ids.contains u.id) || isTerminal u.status then
      some { s with items := s.items.filter fun u => !(ids.contains u.id) }
    else none

/-- Initial hook state: `useState<UploadItem[]>([])`. -/
def qInit : QueueState := ⟨[], [], 0⟩

def qRun : QueueState → List QEvent → Option QueueState
  | s, [] => some s
  | s, e :: es =>
    match step s e with
    | some s' => qRun s' es
    | none => none

theorem mkUploads_files (folderId : Option String) (files : List FileMeta) (ctr : Nat) :
    (mkUploads folderId files ctr).newUploads.map UploadItem.file
      = files.filter fun f => decide (f.size ≤ maxFileSize) := by
  induction files generalizing ctr with
  | nil => rfl
  | cons f fs ih =>
    by_cases h : maxFileSize < f.size
    · simp [mkUploads, h, List.filter_cons, Nat.not_le.mpr h, ih]
    · simp [mkUploads, h, List.filter_cons, Nat.not_lt.mp h, ih]

theorem mkUploads_rejected (folderId : Option String) (files : List FileMeta) (ctr : Nat) :
    (mkUploads folderId files ctr).rejected
      = (files.filter fun f => decide (maxFileSize < f.size)).map FileMeta.name := by
  induction files generalizing ctr with
  | nil => rfl
  | cons f fs ih =>
    by_cases h : maxFileSize < f.size
    · simp [mkUploads, h, List.filter_cons, ih]
    · simp [mkUploads, h, List.filter_cons, ih]

theorem mkUploads_ctr_le (folderId : Option String) (files : List FileMeta) (ctr : Nat) :
    ctr ≤ (mkUploads folderId files ctr).nextId := by
  induction files generalizing ctr with
  | nil => exact le_refl _
  | cons f fs ih =>
    by_cases h : maxFileSize < f.size
    · simpa [mkUploads, h] using ih ctr
    · simp only [mkUploads, if_neg h]
      exact le_trans (Nat.le_succ ctr) (ih (ctr + 1))

theorem mkUploads_shape (folderId : Option String) (files : List FileMeta) (ctr : Nat) :
    ∀ u ∈ (mkUploads folderId files ctr).newUploads,
      u.status = .queued ∧ u.progress = 0 ∧ u.xhr = false ∧ u.folderId = folderId
      ∧ ctr ≤ u.id ∧ u.id < (mkUploads folderId files ctr).nextId := by
  induction files generalizing ctr with
  | nil => intro u hu; simp [mkUploads] at hu
  | cons f fs ih =>
    intro u hu
    by_cases h : maxFileSize < f.size
    · simp only [mkUploads, if_pos h] at hu ⊢
      exact ih ctr u hu
    · simp only [mkUploads, if_neg h, List.mem_cons] at hu ⊢
      have hle := mkUploads_ctr_le folderId fs (ctr + 1)
      rcases hu with rfl | hu
      · refine ⟨rfl, rfl, rfl, rfl, le_refl _, ?_⟩
        show ctr < (mkUploads folderId fs (ctr + 1)).nextId
        omega
      · obtain ⟨h1, h2, h3, h4, h5, h6⟩ := ih (ctr + 1) u hu
        exact ⟨h1, h2, h3, h4, by omega, h6⟩

theorem mkUploads_ids_nodup (folderId : Option String) (files : List FileMeta) (ctr : Nat) :
    ((mkUploads folderId files ctr).newUploads.map UploadItem.id).Nodup := by
  induction files generalizing ctr with
  | nil => simp [mkUploads]
  | cons f fs ih =>
    by_cases h : maxFileSize < f.size
    · simpa [mkUploads, h] using ih ctr
    · simp only [mkUploads, if_neg h, List.map_cons, List.nodup_cons]
      refine ⟨?_, ih (ctr + 1)⟩
      intro hmem
      obtain ⟨u, hu, hid⟩ := List.mem_map.mp hmem
      have := (mkUploads_shape folderId fs (ctr + 1) u hu).2.2.2.2.1
      omega

/-- C5: partial-batch enqueue validation.  Each file is validated
independently against the 1 GiB limit: the accepted files are exactly those
with `size ≤ maxFileSize`, in batch order, each becoming a `queued` item;
the reported errors are exactly the names of the strictly oversized files;
the enqueue step appends the accepted items to the end of the queue.  In
particular `[A (10 MB), B (2 GB)]` yields exactly the one queued item `A`
with `B` rejected. -/
theorem uploadFiles_partialBatch :
    (∀ (folderId : Option String) (files : List FileMeta) (ctr : Nat),
        (mkUploads folderId files ctr).newUploads.map UploadItem.file
          = files.filter (fun f => decide (f.size ≤ maxFileSize))
        ∧ (mkUploads folderId files ctr).rejected
          = (files.filter fun f => decide (maxFileSize < f.size)).map FileMeta.name
        ∧ ∀ u ∈ (mkUploads folderId files ctr).newUploads, u.status = .queued)
    ∧ (∀ (s : QueueState) (files : List FileMeta) (folderId : Option String),
        step s (.enqueue files folderId)
          = some ⟨s.items ++ (mkUploads folderId files s.counter).newUploads,
                  s.transfers, (mkUploads folderId files s.counter).nextId⟩)
    ∧ (mkUploads none [⟨"A", 10 * 1024 * 1024, ""⟩, ⟨"B", 2 * 1024 * 1024 * 1024, ""⟩] 0).newUploads
        = [⟨0, ⟨"A", 10 * 1024 * 1024, ""⟩, 0, .queued, none, false⟩]
    ∧ (mkUploads none [⟨"A", 10 * 1024 * 1024, ""⟩, ⟨"B", 2 * 1024 * 1024 * 1024, ""⟩] 0).rejected
        = ["B"] := by
  refine ⟨fun folderId files ctr =>
      ⟨mkUploads_files folderId files ctr, mkUploads_rejected folderId files ctr,
       fun u hu => (mkUploads_shape folderId files ctr u hu).1⟩,
    fun s files folderId => rfl, by decide, by decide⟩

/-- Witness for C5: instantiating the batch characterisation at the 10 MB
file shows it queued untouched. -/
theorem uploadFiles_partialBatch_witness :
    (mkUploads none [⟨"A", 10 * 1024 * 1024, ""⟩] 0).newUploads.map UploadItem.file
      = [(⟨"A", 10 * 1024 * 1024, ""⟩ : FileMeta)].filter
          (fun f => decide (f.size ≤ maxFileSize)) :=
  (uploadFiles_partialBatch.1 none [⟨"A", 10 * 1024 * 1024, ""⟩] 0).1

/-- C10: in the allow-list `uploadFiles` variant a file whose MIME type is
the empty string bypasses the allow-list — it is accepted and queued
whenever its size is within the limit — and the type check rejects exactly
the files that pass the size check, have a non-empty type, and match none
of the allowed prefixes. -/
theorem uploadFilesAllow_emptyMime (folderId : Option String) (files : List FileMeta)
    (ctr : Nat) :
    (∀ f ∈ files, f.type = "" → f.size ≤ maxFileSize →
        f ∈ (mkUploadsAllow folderId files ctr).newUploads.map UploadItem.file)
    ∧ ((mkUploadsAllow folderId files ctr).typeRejected
        = (files.filter fun f =>
            !decide (maxFileSize < f.size)
            && ((!allowedTypes.any fun t => f.type.startsWith t) && f.type != "")).map
          FileMeta.name)
    ∧ (∀ u ∈ (mkUploadsAllow folderId files ctr).newUploads, u.status = .queued) := by
  induction files generalizing ctr with
  | nil =>
    exact ⟨fun f hf => absurd hf (List.not_mem_nil f), rfl,
      fun u hu => absurd hu (List.not_mem_nil u)⟩
  | cons f fs ih =>
    obtain ⟨ih1, ih2, ih3⟩ := ih ctr
    obtain ⟨ih1', ih2', ih3'⟩ := ih (ctr + 1)
    by_cases hsz : maxFileSize < f.size
    · refine ⟨?_, ?_, ?_⟩
      · intro g hg hty hgs
        rcases List.mem_cons.mp hg with rfl | hg
        · exact absurd hsz (Nat.not_lt.mpr hgs)
        · simpa [mkUploadsAllow, hsz] using ih1 g hg hty hgs
      · simpa [mkUploadsAllow, hsz, List.filter_cons] using ih2
      · intro u hu
        simp only [mkUploadsAllow, if_pos hsz] at hu
        exact ih3 u hu
    · by_cases hty : ((!allowedTypes.any fun t => f.type.startsWith t) && f.type != "") = true
      · refine ⟨?_, ?_, ?_⟩
        · intro g hg hgty hgs
          rcases List.mem_cons.mp hg with rfl | hg
          · rw [Bool.and_eq_true] at hty
            have : (g.type != "") = false := by simp [hgty]
            rw [this] at hty
            exact absurd hty.2 (by simp)
          · simpa [mkUploadsAllow, hsz, hty] using ih1 g hg hgty hgs
        · simpa [mkUploadsAllow, hsz, hty, List.filter_cons] using ih2
        · intro u hu
          simp only [mkUploadsAllow, if_neg hsz, if_pos hty] at hu
          exact ih3 u hu
      · refine ⟨?_, ?_, ?_⟩
        · intro g hg hgty hgs
          rcases List.mem_cons.mp hg with rfl | hg
          · simp [mkUploadsAllow, hsz, hty]
          · simp only [mkUploadsAllow, if_neg hsz, if_neg hty, List.map_cons]
            exact List.mem_cons_of_mem _ (ih1' g hg hgty hgs)
        · simpa [mkUploadsAllow, hsz, hty, List.filter_cons] using ih2'
        · intro u hu
          simp only [mkUploadsAllow, if_neg hsz, if_neg hty, List.mem_cons] at hu
          rcases hu with rfl | hu
          · rfl
          · exact ih3' u hu

/-- Witness for C10: a 10-byte file with empty MIME type is accepted and
queued by the allow-list variant. -/
theorem uploadFilesAllow_emptyMime_witness :
    (⟨"noext", 10, ""⟩ : FileMeta)
      ∈ (mkUploadsAllow none [⟨"noext", 10, ""⟩] 0).newUploads.map UploadItem.file :=
  (uploadFilesAllow_emptyMime none [⟨"noext", 10, ""⟩] 0).1 ⟨"noext", 10, ""⟩
    (by decide) rfl (by decide)

/-! ### Transfer-map helper lemmas -/

theorem getT_setT_self (ts : List (Nat × TransferState)) (id : Nat) (v : TransferState) :
    getT (setT ts id v) id = some v := by
  induction ts with
  | nil => simp [getT, setT]
  | cons p rest ih =>
    by_cases h : p.1 = id
    · simp [setT, h, getT]
    · simp [setT, h, getT, ih]

theorem getT_setT_ne (ts : List (Nat × TransferState)) (id id' : Nat) (v : TransferState)
    (h : id' ≠ id) : getT (setT ts id v) id' = getT ts id' := by
  induction ts with
  | nil => simp [getT, setT, Ne.symm h]
  | cons p rest ih =>
    by_cases hp : p.1 = id
    · simp [setT, hp, getT, Ne.symm h]
    · by_cases hp' : p.1 = id'
      · simp [setT, hp, getT, hp', h]
      · simp [setT, hp, getT, hp', ih]

theorem setT_mem (ts : List (Nat × TransferState)) (id : Nat) (v : TransferState) :
    ∀ p ∈ setT ts id v, p = (id, v) ∨ p ∈ ts := by
  induction ts with
  | nil =>
    intro p hp
    simp only [setT, List.mem_singleton] at hp
    exact Or.inl hp
  | cons q rest ih =>
    intro p hp
    by_cases h : q.1 = id
    · simp only [setT, if_pos h, List.mem_cons] at hp
      rcases hp with h1 | h1
      · exact Or.inl h1
      · exact Or.inr (List.mem_cons_of_mem q h1)
    · simp only [setT, if_neg h, List.mem_cons] at hp
      rcases hp with h1 | h1
      · exact Or.inr (by rw [h1]; exact List.mem_cons_self q rest)
      · rcases ih p h1 with h2 | h2
        · exact Or.inl h2
        · exact Or.inr (List.mem_cons_of_mem q h2)

theorem removeT_mem (ts : List (Nat × TransferState)) (id : Nat) :
    ∀ p ∈ removeT ts id, p ∈ ts := by
  induction ts with
  | nil => intro p hp; simp [removeT] at hp
  | cons q rest ih =>
    intro p hp
    by_cases h : q.1 = id
    · simp only [removeT, if_pos h] at hp
      exact List.mem_cons_of_mem q (ih p hp)
    · simp only [removeT, if_neg h, List.mem_cons] at hp
      rcases hp with h1 | h1
      · exact (by rw [h1]; exact List.mem_cons_self q rest)
      · exact List.mem_cons_of_mem q (ih p h1)

theorem getT_removeT_ne (ts : List (Nat × TransferState)) (id id' : Nat)
    (h : id' ≠ id) : getT (removeT ts id) id' = getT ts id' := by
  induction ts with
  | nil => rfl
  | cons p rest ih =>
    by_cases hp : p.1 = id
    · simp [removeT, hp, getT, Ne.symm h, ih]
    · by_cases hp' : p.1 = id'
      · simp [removeT, hp, getT, hp', h]
      · simp [removeT, hp, getT, hp', ih]

/-- C3 counterexample: enqueue two valid files and run the (reactive)
processing step twice; the resulting reachable state has both items
`uploading` at once — `processQueue` never checks for an item that is
already uploading, so the claimed at-most-one-uploading invariant fails. -/
theorem processQueue_twoUploading_cex :
    (qRun qInit [.enqueue [⟨"a", 10, ""⟩, ⟨"b", 20, ""⟩] none,
                 .processStep, .processStep]).map
        (fun s => (s.items.filter fun u => u.status == UploadStatus.uploading).length)
      = some 2 ∧ 1 < 2 := ⟨rfl, by decide⟩

/-- C3 (amended): the processing step starts the earliest queued item
whenever one exists, with no regard to items already uploading: it marks
exactly the found item `uploading` (attaching its transfer) and leaves every
other item untouched, so after the step both the newly started item and any
previously uploading item are simultaneously `uploading`. -/
theorem processStep_startsQueued_regardless (s : QueueState) (nu v : UploadItem)
    (hfind : s.items.find? (fun u => u.status == UploadStatus.queued) = some nu)
    (hv : v ∈ s.items) (hvs : v.status = .uploading) (hvne : v.id ≠ nu.id) :
    ∃ s', step s .processStep = some s'
      ∧ s'.items = s.items.map (fun u =>
          if u.id = nu.id then { u with status := .uploading, xhr := true } else u)
      ∧ nu.id ∈ (s'.items.filter fun u => u.status == UploadStatus.uploading).map
          UploadItem.id
      ∧ v.id ∈ (s'.items.filter fun u => u.status == UploadStatus.uploading).map
          UploadItem.id := by
  refine ⟨⟨s.items.map (fun u =>
            if u.id = nu.id then { u with status := .uploading, xhr := true } else u),
          setT s.transfers nu.id .inFlight, s.counter⟩, ?_, rfl, ?_, ?_⟩
  · simp [step, hfind]
  · have hnu : nu ∈ s.items := List.mem_of_find?_eq_some hfind
    have hmem : ({ nu with status := UploadStatus.uploading, xhr := true } : UploadItem)
        ∈ s.items.map (fun u =>
          if u.id = nu.id then { u with status := .uploading, xhr := true } else u) := by
      have := List.mem_map_of_mem (fun u =>
        if u.id = nu.id then { u with status := UploadStatus.uploading, xhr := true } else u) hnu
      simpa using this
    exact List.mem_map.mpr ⟨_, List.mem_filter.mpr ⟨hmem, by simp⟩, rfl⟩
  · have hmem : v ∈ s.items.map (fun u =>
        if u.id = nu.id then { u with status := .uploading, xhr := true } else u) := by
      have := List.mem_map_of_mem (fun u =>
        if u.id = nu.id then { u with status := UploadStatus.uploading, xhr := true } else u) hv
      simpa [if_neg hvne] using this
    exact List.mem_map.mpr ⟨v, List.mem_filter.mpr ⟨hmem, by simp [hvs]⟩, rfl⟩

/-- Witness for C3's amended theorem: with item 0 already uploading and item
1 queued, the processing step starts item 1, leaving two simultaneously
uploading items. -/
theorem processStep_startsQueued_regardless_witness :
    ∃ s', step ⟨[⟨0, ⟨"a", 10, ""⟩, 0, .uploading, none, true⟩,
                 ⟨1, ⟨"b", 20, ""⟩, 0, .queued, none, false⟩],
                [(0, .inFlight)], 2⟩ .processStep = some s'
      ∧ s'.items = [⟨0, ⟨"a", 10, ""⟩, 0, .uploading, none, true⟩,
                    ⟨1, ⟨"b", 20, ""⟩, 0, .queued, none, false⟩].map (fun u =>
          if u.id = (⟨1, ⟨"b", 20, ""⟩, 0, .queued, none, false⟩ : UploadItem).id
          then { u with status := .uploading, xhr := true } else u)
      ∧ (⟨1, ⟨"b", 20, ""⟩, 0, .queued, none, false⟩ : UploadItem).id
          ∈ (s'.items.filter fun u => u.status == UploadStatus.uploading).map UploadItem.id
      ∧ (⟨0, ⟨"a", 10, ""⟩, 0, .uploading, none, true⟩ : UploadItem).id
          ∈ (s'.items.filter fun u => u.status == UploadStatus.uploading).map UploadItem.id :=
  processStep_startsQueued_regardless _ _ _ rfl (by decide) rfl (by decide)

/-- C6 counterexample: an enqueued-but-not-started item (no abort handle) is
not cancelled by `cancelUpload` — its status remains `queued`, not the
claimed `cancelled`. -/
theorem cancelQueued_cex :
    (qRun qInit [.enqueue [⟨"a", 10, ""⟩] none, .cancel 0]).map
        (fun s => s.items.map UploadItem.status) = some [.queued]
    ∧ UploadStatus.queued ≠ UploadStatus.cancelled := ⟨rfl, by decide⟩

/-- C6 (amended): invoking `cancelUpload` on an id whose items hold no abort
handle (in particular a queued item, whose transfer has not started) is a
complete no-op: the state — every item's status included — is unchanged and
no network activity occurs. -/
theorem cancelUpload_noHandle_noop (s : QueueState) (id : Nat)
    (h : ∀ u ∈ s.items, u.id = id → u.xhr = false) :
    step s (.cancel id) = some s := by
  have hmap : (s.items.map fun u =>
      if u.id = id ∧ u.xhr then { u with status := .cancelled } else u) = s.items := by
    have hcong : ∀ u ∈ s.items,
        (if u.id = id ∧ u.xhr then { u with status := UploadStatus.cancelled } else u) = u := by
      intro u hu
      rw [if_neg]
      rintro ⟨h1, h2⟩
      rw [h u hu h1] at h2
      exact absurd h2 (by simp)
    rw [List.map_congr_left hcong]
    exact List.map_id' s.items
  have hany : (s.items.any fun u => u.id == id && u.xhr) = false := by
    rw [List.any_eq_false]
    intro u hu
    simp only [Bool.and_eq_true, beq_iff_eq, not_and]
    intro h1
    simp [h u hu h1]
  simp [step, hmap, hany]

/-- Witness for C6's amended theorem: cancelling a freshly queued item
leaves the state untouched. -/
theorem cancelUpload_noHandle_noop_witness :
    step ⟨[⟨0, ⟨"a", 10, ""⟩, 0, .queued, none, false⟩], [], 1⟩ (.cancel 0)
      = some ⟨[⟨0, ⟨"a", 10, ""⟩, 0, .queued, none, false⟩], [], 1⟩ :=
  cancelUpload_noHandle_noop _ 0 (by decide)

/-- C9: cancelling an in-flight transfer is never reported as an error.
Cancelling an uploading item (abort handle present, transfer in flight)
immediately marks it `cancelled` and aborts its transfer; when the abort
rejection is observed, the `catch` recognises the `"Upload cancelled."`
message and changes nothing — the item is still `cancelled`, and the
error-assigning path never runs for an aborted transfer. -/
theorem cancelUploading_neverError (s : QueueState) (id : Nat)
    (hview : ∀ u ∈ s.items, u.id = id → u.status = .uploading ∧ u.xhr = true)
    (hex : ∃ u ∈ s.items, u.id = id)
    (ht : getT s.transfers id = some .inFlight) :
    ∃ s' s'', step s (.cancel id) = some s'
      ∧ (∀ u ∈ s'.items, u.id = id → u.status = .cancelled)
      ∧ getT s'.transfers id = some .aborted
      ∧ step s' (.settleAborted id) = some s''
      ∧ s''.items = s'.items
      ∧ (∀ u ∈ s''.items, u.id = id → u.status ≠ .error) := by
  obtain ⟨w, hw, hwid⟩ := hex
  have hany : (s.items.any fun u => u.id == id && u.xhr) = true := by
    refine List.any_eq_true.mpr ⟨w, hw, ?_⟩
    simp [hwid, (hview w hw hwid).2]
  have hitems : ∀ u ∈ (s.items.map fun u =>
      if u.id = id ∧ u.xhr then { u with status := UploadStatus.cancelled } else u),
      u.id = id → u.status = .cancelled := by
    intro u hu hid
    obtain ⟨v, hv, rfl⟩ := List.mem_map.mp hu
    by_cases hc : v.id = id ∧ v.xhr
    · simp [if_pos hc]
    · rw [if_neg hc] at hid ⊢
      exact absurd ⟨hid, by simp [(hview v hv hid).2]⟩ hc
  refine ⟨⟨s.items.map fun u =>
            if u.id = id ∧ u.xhr then { u with status := .cancelled } else u,
           setT s.transfers id .aborted, s.counter⟩,
          ⟨s.items.map fun u =>
            if u.id = id ∧ u.xhr then { u with status := .cancelled } else u,
           removeT (setT s.transfers id .aborted) id, s.counter⟩,
          ?_, hitems, getT_setT_self s.transfers id .aborted, ?_, rfl, ?_⟩
  · simp [step, hany, ht]
  · simp [step, getT_setT_self, uploadCatch]
  · intro u hu hid
    simp [hitems u hu hid]

/-- Witness for C9: one uploading item with a live transfer; cancel then the
abort settlement leave it `cancelled`, never `error`. -/
theorem cancelUploading_neverError_witness :
    ∃ s' s'',
      step ⟨[⟨0, ⟨"a", 10, ""⟩, 5, .uploading, none, true⟩], [(0, .inFlight)], 1⟩
          (.cancel 0) = some s'
      ∧ (∀ u ∈ s'.items, u.id = 0 → u.status = .cancelled)
      ∧ getT s'.transfers 0 = some .aborted
      ∧ step s' (.settleAborted 0) = some s''
      ∧ s''.items = s'.items
      ∧ (∀ u ∈ s''.items, u.id = 0 → u.status ≠ .error) :=
  cancelUploading_neverError _ 0 (by decide) (by decide) rfl

/-! ### Reachability invariants of the upload queue

`Inv` collects the structural facts that hold in every reachable state:
an in-flight transfer belongs to an `uploading` item; transfer keys and
item ids were issued by the counter; item ids are pairwise distinct. -/

def Inv (s : QueueState) : Prop :=
  (∀ id, getT s.transfers id = some .inFlight →
      ∀ u ∈ s.items, u.id = id → u.status = .uploading)
  ∧ (∀ p ∈ s.transfers, p.1 < s.counter)
  ∧ (∀ u ∈ s.items, u.id < s.counter)
  ∧ (s.items.map UploadItem.id).Nodup

theorem getT_mem (ts : List (Nat × TransferState)) (id : Nat) (v : TransferState)
    (h : getT ts id = some v) : (id, v) ∈ ts := by
  induction ts with
  | nil => simp [getT] at h
  | cons p rest ih =>
    by_cases hp : p.1 = id
    · simp only [getT, if_pos hp] at h
      have hpv : p = (id, v) := by
        obtain ⟨p1, p2⟩ := p
        simp only at hp h ⊢
        injection h with h2
        rw [hp, h2]
      rw [← hpv]
      exact List.mem_cons_self p rest
    · simp only [getT, if_neg hp] at h
      exact List.mem_cons_of_mem p (ih h)

theorem getT_removeT_self (ts : List (Nat × TransferState)) (id : Nat) :
    getT (removeT ts id) id = none := by
  induction ts with
  | nil => rfl
  | cons p rest ih =>
    by_cases hp : p.1 = id
    · simp [removeT, hp, ih]
    · simp [removeT, hp, getT, ih]

theorem map_ids_of_preserve (l : List UploadItem) (f : UploadItem → UploadItem)
    (h : ∀ u ∈ l, (f u).id = u.id) :
    (l.map f).map UploadItem.id = l.map UploadItem.id := by
  rw [List.map_map]
  exact List.map_congr_left h

theorem uploadCatch_ids (id : Nat) (msg : String) (l : List UploadItem) :
    (uploadCatch id msg l).map UploadItem.id = l.map UploadItem.id := by
  by_cases hm : msg = cancelledMsg
  · simp [uploadCatch, hm]
  · rw [show uploadCatch id msg l = l.map fun u =>
        if u.id = id then { u with status := .error } else u from by simp [uploadCatch, hm]]
    exact map_ids_of_preserve _ _ (by
      intro u hu
      by_cases h : u.id = id <;> simp [h])

theorem uploadCatch_mem (id : Nat) (msg : String) (l : List UploadItem)
    (u' : UploadItem) (hu' : u' ∈ uploadCatch id msg l) :
    ∃ v ∈ l, v.id = u'.id
      ∧ (u' = v ∨ (v.id = id ∧ u' = { v with status := .error })) := by
  by_cases hm : msg = cancelledMsg
  · rw [show uploadCatch id msg l = l from by simp [uploadCatch, hm]] at hu'
    exact ⟨u', hu', rfl, Or.inl rfl⟩
  · rw [show uploadCatch id msg l = l.map fun u =>
        if u.id = id then { u with status := .error } else u from by
          simp [uploadCatch, hm]] at hu'
    obtain ⟨v, hv, rfl⟩ := List.mem_map.mp hu'
    by_cases h : v.id = id
    · exact ⟨v, hv, by simp [h], Or.inr ⟨h, by simp [h]⟩⟩
    · exact ⟨v, hv, by simp [h], Or.inl (by simp [h])⟩

theorem step_inv (s : QueueState) (e : QEvent) (s' : QueueState)
    (hstep : step s e = some s') (hinv : Inv s) : Inv s' := by
  obtain ⟨hA, hB, hC, hD⟩ := hinv
  cases e with
  | enqueue files folderId =>
    simp only [step, Option.some.injEq] at hstep
    subst hstep
    refine ⟨?_, ?_, ?_, ?_⟩
    · intro id htr u hu hid
      rcases List.mem_append.mp hu with h1 | h1
      · exact hA id htr u h1 hid
      · exfalso
        have h2 := (mkUploads_shape folderId files s.counter u h1).2.2.2.2.1
        have h3 : id < s.counter := hB (id, .inFlight) (getT_mem _ _ _ htr)
        omega
    · intro p hp
      exact lt_of_lt_of_le (hB p hp) (mkUploads_ctr_le folderId files s.counter)
    · intro u hu
      rcases List.mem_append.mp hu with h1 | h1
      · exact lt_of_lt_of_le (hC u h1) (mkUploads_ctr_le folderId files s.counter)
      · exact (mkUploads_shape folderId files s.counter u h1).2.2.2.2.2
    · rw [List.map_append, List.nodup_append]
      refine ⟨hD, mkUploads_ids_nodup folderId files s.counter, ?_⟩
      intro a ha1 ha2
      obtain ⟨u, hu, rfl⟩ := List.mem_map.mp ha1
      obtain ⟨v, hv, hveq⟩ := List.mem_map.mp ha2
      have h1 := hC u hu
      have h2 := (mkUploads_shape folderId files s.counter v hv).2.2.2.2.1
      omega
  | processStep =>
    cases hfind : s.items.find? (fun x => x.status == UploadStatus.queued) with
    | none =>
      simp only [step, hfind] at hstep
      obtain rfl : s = s' := Option.some.inj hstep
      exact ⟨hA, hB, hC, hD⟩
    | some nu =>
      simp only [step, hfind, Option.some.injEq] at hstep
      subst hstep
      have hnu : nu ∈ s.items := List.mem_of_find?_eq_some hfind
      refine ⟨?_, ?_, ?_, ?_⟩
      · intro id htr u' hu' hid
        obtain ⟨v, hv, rfl⟩ := List.mem_map.mp hu'
        by_cases hvid : v.id = nu.id
        · simp [if_pos hvid]
        · rw [if_neg hvid] at hid ⊢
          have hne : id ≠ nu.id := by rw [← hid]; exact hvid
          rw [getT_setT_ne _ _ _ _ hne] at htr
          exact hA id htr v hv hid
      · intro p hp
        rcases setT_mem _ _ _ p hp with rfl | hp'
        · exact hC nu hnu
        · exact hB p hp'
      · intro u' hu'
        obtain ⟨v, hv, rfl⟩ := List.mem_map.mp hu'
        by_cases h : v.id = nu.id
        · simpa [if_pos h] using hC v hv
        · simpa [if_neg h] using hC v hv
      · rw [map_ids_of_preserve _ _ (by
          intro u hu
          by_cases h : u.id = nu.id <;> simp [h])]
        exact hD
  | progressUpdate id p =>
    cases hg : getT s.transfers id with
    | none => simp [step, hg] at hstep
    | some t =>
      cases t with
      | aborted => simp [step, hg] at hstep
      | inFlight =>
        simp only [step, hg, Option.some.injEq] at hstep
        subst hstep
        refine ⟨?_, hB, ?_, ?_⟩
        · intro id' htr u' hu' hid
          obtain ⟨v, hv, rfl⟩ := List.mem_map.mp hu'
          by_cases h : v.id = id
          · rw [if_pos h] at hid ⊢
            simpa using hA id' htr v hv hid
          · rw [if_neg h] at hid ⊢
            exact hA id' htr v hv hid
        · intro u' hu'
          obtain ⟨v, hv, rfl⟩ := List.mem_map.mp hu'
          by_cases h : v.id = id
          · simpa [if_pos h] using hC v hv
          · simpa [if_neg h] using hC v hv
        · rw [map_ids_of_preserve _ _ (by
            intro u hu
            by_cases h : u.id = id <;> simp [h])]
          exact hD
  | cancel id =>
    simp only [step, Option.some.injEq] at hstep
    subst hstep
    refine ⟨?_, ?_, ?_, ?_⟩
    · intro id' htr u' hu' hid
      obtain ⟨v, hv, rfl⟩ := List.mem_map.mp hu'
      have hvid : (if v.id = id ∧ v.xhr = true then
          { v with status := UploadStatus.cancelled } else v).id = v.id := by
        by_cases h : v.id = id ∧ v.xhr = true <;> simp [h]
      rw [hvid] at hid
      cases hx : s.items.any fun u => u.id == id && u.xhr with
      | false =>
        rw [hx] at htr
        have htr' : getT s.transfers id' = some TransferState.inFlight := htr
        by_cases hc : v.id = id ∧ v.xhr
        · exfalso
          rw [List.any_eq_false] at hx
          exact hx v hv (by simp [hc.1, hc.2])
        · rw [if_neg hc]
          exact hA id' htr' v hv hid
      | true =>
        rw [hx] at htr
        cases hg : getT s.transfers id with
        | none =>
          rw [hg] at htr
          have htr' : getT s.transfers id' = some TransferState.inFlight := htr
          by_cases hc : v.id = id ∧ v.xhr
          · exfalso
            have hidid : id = id' := hc.1 ▸ hid
            rw [← hidid, hg] at htr'
            exact Option.noConfusion htr'
          · rw [if_neg hc]
            exact hA id' htr' v hv hid
        | some t =>
          cases t with
          | inFlight =>
            rw [hg] at htr
            have htr' : getT (setT s.transfers id TransferState.aborted) id'
                = some TransferState.inFlight := htr
            by_cases hc : v.id = id ∧ v.xhr
            · exfalso
              have hidid : id = id' := hc.1 ▸ hid
              rw [← hidid, getT_setT_self] at htr'
              simp at htr'
            · rw [if_neg hc]
              have hne : id' ≠ id := by
                intro heq
                rw [heq, getT_setT_self] at htr'
                simp at htr'
              rw [getT_setT_ne _ _ _ _ hne] at htr'
              exact hA id' htr' v hv hid
          | aborted =>
            rw [hg] at htr
            have htr' : getT s.transfers id' = some TransferState.inFlight := htr
            by_cases hc : v.id = id ∧ v.xhr
            · exfalso
              have hidid : id = id' := hc.1 ▸ hid
              rw [← hidid, hg] at htr'
              simp at htr'
            · rw [if_neg hc]
              exact hA id' htr' v hv hid
    · intro p hp
      by_cases hx : (s.items.any fun u => u.id == id && u.xhr) = true
      · rw [hx] at hp
        cases hg : getT s.transfers id with
        | none =>
          rw [hg] at hp
          exact hB p hp
        | some t =>
          cases t with
          | inFlight =>
            rw [hg] at hp
            have hp2 : p ∈ setT s.transfers id TransferState.aborted := hp
            rcases setT_mem _ _ _ p hp2 with rfl | hp'
            · obtain ⟨w, hw, hwp⟩ := List.any_eq_true.mp hx
              have hwid : w.id = id := by
                rcases Bool.and_eq_true .. |>.mp hwp with ⟨h1, _⟩
                exact eq_of_beq h1
              exact hwid ▸ hC w hw
            · exact hB p hp'
          | aborted =>
            rw [hg] at hp
            exact hB p hp
      · rw [Bool.not_eq_true] at hx
        rw [hx] at hp
        exact hB p hp
    · intro u' hu'
      obtain ⟨v, hv, rfl⟩ := List.mem_map.mp hu'
      by_cases h : v.id = id ∧ v.xhr
      · simpa [if_pos h] using hC v hv
      · simpa [if_neg h] using hC v hv
    · rw [map_ids_of_preserve _ _ (by
        intro u hu
        by_cases h : u.id = id ∧ u.xhr <;> simp [h])]
      exact hD
  | settle id outcome =>
    cases hg : getT s.transfers id with
    | none => simp [step, hg] at hstep
    | some t =>
      cases t with
      | aborted => simp [step, hg] at hstep
      | inFlight =>
        cases outcome with
        | okResponse =>
          simp only [step, hg, Option.some.injEq] at hstep
          subst hstep
          refine ⟨?_, ?_, ?_, ?_⟩
          · intro id' htr u' hu' hid
            have hne : id' ≠ id := by
              intro heq
              rw [heq, getT_removeT_self] at htr
              cases htr
            rw [getT_removeT_ne _ _ _ hne] at htr
            obtain ⟨v, hv, rfl⟩ := List.mem_map.mp hu'
            by_cases h : v.id = id
            · exfalso
              rw [if_pos h] at hid
              have h1 : v.id = id' := by simpa using hid
              exact hne ((h ▸ h1).symm)
            · rw [if_neg h] at hid ⊢
              exact hA id' htr v hv hid
          · intro p hp
            exact hB p (removeT_mem _ _ p hp)
          · intro u' hu'
            obtain ⟨v, hv, rfl⟩ := List.mem_map.mp hu'
            by_cases h : v.id = id
            · simpa [if_pos h] using hC v hv
            · simpa [if_neg h] using hC v hv
          · rw [map_ids_of_preserve _ _ (by
              intro u hu
              by_cases h : u.id = id <;> simp [h])]
            exact hD
        | failure msg =>
          simp only [step, hg, Option.some.injEq] at hstep
          subst hstep
          refine ⟨?_, ?_, ?_, ?_⟩
          · intro id' htr u' hu' hid
            have hne : id' ≠ id := by
              intro heq
              rw [heq, getT_removeT_self] at htr
              cases htr
            rw [getT_removeT_ne _ _ _ hne] at htr
            obtain ⟨v, hv, hvid, hcase⟩ := uploadCatch_mem id msg s.items u' hu'
            rcases hcase with heq | ⟨hvid2, heq⟩
            · rw [heq]
              exact hA id' htr v hv (hvid.trans hid)
            · exfalso
              have h1 : v.id = id' := by
                rw [heq] at hid
                simpa using hid
              exact hne (by rw [← h1]; exact hvid2)
          · intro p hp
            exact hB p (removeT_mem _ _ p hp)
          · intro u' hu'
            obtain ⟨v, hv, hvid, _⟩ := uploadCatch_mem id msg s.items u' hu'
            exact hvid ▸ hC v hv
          · rw [uploadCatch_ids]
            exact hD
  | settleAborted id =>
    cases hg : getT s.transfers id with
    | none => simp [step, hg] at hstep
    | some t =>
      cases t with
      | inFlight => simp [step, hg] at hstep
      | aborted =>
        simp only [step, hg, Option.some.injEq] at hstep
        subst hstep
        have hsame : uploadCatch id cancelledMsg s.items = s.items := by
          simp [uploadCatch]
        refine ⟨?_, ?_, ?_, ?_⟩
        · intro id' htr u' hu' hid
          have hne : id' ≠ id := by
            intro heq
            rw [heq, getT_removeT_self] at htr
            cases htr
          rw [getT_removeT_ne _ _ _ hne] at htr
          rw [hsame] at hu'
          exact hA id' htr u' hu' hid
        · intro p hp
          exact hB p (removeT_mem _ _ p hp)
        · intro u' hu'
          rw [hsame] at hu'
          exact hC u' hu'
        · rw [hsame]
          exact hD
  | evict ids =>
    by_cases hall : (s.items.all fun u => !(ids.contains u.id) || isTerminal u.status) = true
    · simp only [step, hall, if_true, Option.some.injEq] at hstep
      subst hstep
      refine ⟨?_, hB, ?_, ?_⟩
      · intro id htr u hu hid
        exact hA id htr u (List.mem_of_mem_filter hu) hid
      · intro u hu
        exact hC u (List.mem_of_mem_filter hu)
      · exact ((List.filter_sublist s.items).map UploadItem.id).nodup hD
    · exfalso
      rw [Bool.not_eq_true] at hall
      have hnone : step s (.evict ids) = none := by
        simp only [step, hall]
        rfl
      rw [hnone] at hstep
      exact Option.noConfusion hstep

theorem qInit_inv : Inv qInit := by
  refine ⟨?_, ?_, ?_, ?_⟩
  · intro id htr
    simp [qInit, getT] at htr
  · intro p hp
    simp [qInit] at hp
  · intro u hu
    simp [qInit] at hu
  · simp [qInit]

theorem qRun_inv (es : List QEvent) :
    ∀ s0 s, Inv s0 → qRun s0 es = some s → Inv s := by
  induction es with
  | nil =>
    intro s0 s h0 hrun
    obtain rfl : s0 = s := Option.some.inj hrun
    exact h0
  | cons e es ih =>
    intro s0 s h0 hrun
    cases hstep : step s0 e with
    | none => simp [qRun, hstep] at hrun
    | some s1 =>
      simp only [qRun, hstep] at hrun
      exact ih s1 s (step_inv s0 e s1 hstep h0) hrun

/-- C7 counterexample: an item that has reached the terminal state
`complete` (and still carries its xhr, which `processQueue` never removes)
is moved to `cancelled` by `cancelUpload` — the transition
complete → cancelled leaves a terminal state, which the claimed DAG
forbids. -/
theorem terminalExit_cex :
    (qRun qInit [.enqueue [⟨"a", 10, ""⟩] none, .processStep,
                 .settle 0 .okResponse]).map
        (fun s => s.items.map UploadItem.status) = some [.complete]
    ∧ (qRun qInit [.enqueue [⟨"a", 10, ""⟩] none, .processStep,
                   .settle 0 .okResponse, .cancel 0]).map
        (fun s => s.items.map UploadItem.status) = some [.cancelled]
    ∧ UploadStatus.cancelled ≠ UploadStatus.complete := ⟨rfl, rfl, by decide⟩

/-- C7 (amended): in every reachable state, an item whose status is terminal
(`complete`, `error` or `cancelled`) keeps its status across every
subsequent operation — enqueue, queue processing, progress, settlement,
abort settlement, eviction — with the single exception of `cancelUpload` on
an item that holds an abort handle, which sets the status to `cancelled`
(changing it exactly when it was `complete` or `error`).  The realised
transition DAG is therefore queued→uploading→{complete,error},
uploading→cancelled, complete→cancelled, error→cancelled. -/
theorem terminal_changedOnlyByCancel (es : List QEvent) (s : QueueState)
    (hreach : qRun qInit es = some s)
    (e : QEvent) (s' : QueueState) (hstep : step s e = some s')
    (u : UploadItem) (hu : u ∈ s.items) (hterm : isTerminal u.status = true)
    (u' : UploadItem) (hu' : u' ∈ s'.items) (hid : u'.id = u.id) :
    u'.status = u.status
    ∨ (e = .cancel u.id ∧ u.xhr = true ∧ u'.status = .cancelled) := by
  obtain ⟨hA, hB, hC, hD⟩ := qRun_inv es qInit s qInit_inv hreach
  have hinj : ∀ v ∈ s.items, ∀ w ∈ s.items, v.id = w.id → v = w := by
    intro v hv w hw hvw
    exact List.inj_on_of_nodup_map hD hv hw hvw
  cases e with
  | enqueue files folderId =>
    simp only [step, Option.some.injEq] at hstep
    subst hstep
    rcases List.mem_append.mp hu' with h1 | h1
    · exact Or.inl (congrArg UploadItem.status (hinj u' h1 u hu hid))
    · exfalso
      have h2 := (mkUploads_shape folderId files s.counter u' h1).2.2.2.2.1
      have h3 := hC u hu
      omega
  | processStep =>
    cases hfind : s.items.find? (fun x => x.status == UploadStatus.queued) with
    | none =>
      simp only [step, hfind] at hstep
      obtain rfl : s = s' := Option.some.inj hstep
      exact Or.inl (congrArg UploadItem.status (hinj u' hu' u hu hid))
    | some nu =>
      simp only [step, hfind, Option.some.injEq] at hstep
      subst hstep
      obtain ⟨v, hv, rfl⟩ := List.mem_map.mp hu'
      have hvid : (if v.id = nu.id then
          { v with status := UploadStatus.uploading, xhr := true } else v).id = v.id := by
        by_cases h : v.id = nu.id <;> simp [h]
      rw [hvid] at hid
      obtain rfl : v = u := hinj v hv u hu hid
      by_cases h : v.id = nu.id
      · exfalso
        have hnu : nu ∈ s.items := List.mem_of_find?_eq_some hfind
        obtain rfl : v = nu := hinj v hv nu hnu h
        have hq : v.status = .queued := by simpa using List.find?_some hfind
        rw [hq] at hterm
        simp [isTerminal] at hterm
      · rw [if_neg h]
        exact Or.inl rfl
  | progressUpdate id p =>
    cases hg : getT s.transfers id with
    | none => simp [step, hg] at hstep
    | some t =>
      cases t with
      | aborted => simp [step, hg] at hstep
      | inFlight =>
        simp only [step, hg, Option.some.injEq] at hstep
        subst hstep
        obtain ⟨v, hv, rfl⟩ := List.mem_map.mp hu'
        refine Or.inl ?_
        have hvid : (if v.id = id then { v with progress := p } else v).id = v.id := by
          by_cases h : v.id = id <;> simp [h]
        rw [hvid] at hid
        obtain rfl : v = u := hinj v hv u hu hid
        by_cases h : v.id = id
        · simp [if_pos h]
        · simp [if_neg h]
  | cancel cid =>
    simp only [step, Option.some.injEq] at hstep
    subst hstep
    obtain ⟨v, hv, rfl⟩ := List.mem_map.mp hu'
    have hvid : (if v.id = cid ∧ v.xhr = true then
        { v with status := UploadStatus.cancelled } else v).id = v.id := by
      by_cases h : v.id = cid ∧ v.xhr = true <;> simp [h]
    rw [hvid] at hid
    obtain rfl : v = u := hinj v hv u hu hid
    by_cases h : v.id = cid ∧ v.xhr = true
    · refine Or.inr ⟨by rw [h.1], h.2, by simp [if_pos h]⟩
    · rw [if_neg h]
      exact Or.inl rfl
  | settle id outcome =>
    cases hg : getT s.transfers id with
    | none => simp [step, hg] at hstep
    | some t =>
      cases t with
      | aborted => simp [step, hg] at hstep
      | inFlight =>
        have hne : u.id ≠ id := by
          intro heq
          rw [hA id hg u hu heq] at hterm
          simp [isTerminal] at hterm
        cases outcome with
        | okResponse =>
          simp only [step, hg, Option.some.injEq] at hstep
          subst hstep
          obtain ⟨v, hv, rfl⟩ := List.mem_map.mp hu'
          have hvid : (if v.id = id then
              { v with status := UploadStatus.complete, progress := 100 } else v).id
              = v.id := by
            by_cases h : v.id = id <;> simp [h]
          rw [hvid] at hid
          obtain rfl : v = u := hinj v hv u hu hid
          rw [if_neg hne]
          exact Or.inl rfl
        | failure msg =>
          simp only [step, hg, Option.some.injEq] at hstep
          subst hstep
          obtain ⟨v, hv, hvid, hcase⟩ := uploadCatch_mem id msg s.items u' hu'
          rcases hcase with heq | ⟨hvid2, heq⟩
          · obtain rfl : v = u := hinj v hv u hu (hvid.trans hid)
            rw [heq]
            exact Or.inl rfl
          · exfalso
            have h1 : v.id = u.id := by
              rw [heq] at hid
              simpa using hid
            obtain rfl : v = u := hinj v hv u hu h1
            exact hne hvid2
  | settleAborted id =>
    cases hg : getT s.transfers id with
    | none => simp [step, hg] at hstep
    | some t =>
      cases t with
      | inFlight => simp [step, hg] at hstep
      | aborted =>
        simp only [step, hg, Option.some.injEq] at hstep
        subst hstep
        have hsame : uploadCatch id cancelledMsg s.items = s.items := by
          simp [uploadCatch]
        rw [hsame] at hu'
        exact Or.inl (congrArg UploadItem.status (hinj u' hu' u hu hid))
  | evict ids =>
    by_cases hall : (s.items.all fun x => !(ids.contains x.id) || isTerminal x.status) = true
    · simp only [step, hall, if_true, Option.some.injEq] at hstep
      subst hstep
      exact Or.inl (congrArg UploadItem.status
        (hinj u' (List.mem_of_mem_filter hu') u hu hid))
    · exfalso
      rw [Bool.not_eq_true] at hall
      have hnone : step s (.evict ids) = none := by
        simp only [step, hall]
        rfl
      rw [hnone] at hstep
      exact Option.noConfusion hstep

/-- Witness for C7's amended theorem: a reachable `complete` item with its
abort handle still attached is re-marked `cancelled` by `cancelUpload` — the
cancel clause of the amended statement. -/
theorem terminal_changedOnlyByCancel_witness :
    UploadStatus.cancelled = UploadStatus.complete
    ∨ (QEvent.cancel 0 = QEvent.cancel 0 ∧ true = true
        ∧ UploadStatus.cancelled = UploadStatus.cancelled) :=
  terminal_changedOnlyByCancel
    [.enqueue [⟨"a", 10, ""⟩] none, .processStep, .settle 0 .okResponse]
    ⟨[⟨0, ⟨"a", 10, ""⟩, 100, .complete, none, true⟩], [], 1⟩ rfl
    (.cancel 0) ⟨[⟨0, ⟨"a", 10, ""⟩, 100, .cancelled, none, true⟩], [], 1⟩ rfl
    ⟨0, ⟨"a", 10, ""⟩, 100, .complete, none, true⟩ (by decide) rfl
    ⟨0, ⟨"a", 10, ""⟩, 100, .cancelled, none, true⟩ (by decide) rfl

/-! ### Folder-tree guard (`Modals.getDisabledIds`, App.tsx 1505–1535)

The move dialog fetches a folder-tree snapshot and computes the set of
ids that may not be chosen as a move destination.  The modal guards
(`modal.type !== "move"`, absent `modal.data`) select whether the function
runs at all and are outside the modelled computation. -/

/-- A node of the folder-tree snapshot (types.ts 81–83); only the fields the
guard reads (`_id`, `children`) are modelled. -/
structure FolderTreeNode where
  _id : String
  children : List FolderTreeNode

inductive ItemType where
  | file
  | folder
deriving DecidableEq, Repr

/-- A `DriveItem` of the move batch as the guard reads it: its id and
whether it is a file or a folder (types.ts 79). -/
structure DriveItem where
  _id : String
  type : ItemType
deriving DecidableEq, Repr

mutual
/-- All ids of a subtree, preorder. -/
def treeIds : FolderTreeNode → List String
  | ⟨i, cs⟩ => i :: forestIds cs
def forestIds : List FolderTreeNode → List String
  | [] => []
  | t :: ts => treeIds t ++ forestIds ts
end

mutual
def treeSize : FolderTreeNode → Nat
  | ⟨_, cs⟩ => 1 + forestSize cs
def forestSize : List FolderTreeNode → Nat
  | [] => 0
  | t :: ts => treeSize t + forestSize ts
end

mutual
/-- First node with the given id, preorder (the structural counterpart of
the `allFolders` map lookup, used on the specification side). -/
def findTree : FolderTreeNode → String → Option FolderTreeNode
  | ⟨i, cs⟩, x => if i = x then some ⟨i, cs⟩ else findForest cs x
def findForest : List FolderTreeNode → String → Option FolderTreeNode
  | [], _ => none
  | t :: ts, x =>
    match findTree t x with
    | some n => some n
    | none => findForest ts x
end

/-- `Map.set` of the `allFolders` map: overwrite the binding if the key is
present, append otherwise. -/
def setM : List (String × FolderTreeNode) → String → FolderTreeNode →
    List (String × FolderTreeNode)
  | [], k, v => [(k, v)]
  | p :: rest, k, v => if p.1 = k then (k, v) :: rest else p :: setM rest k v

/-- `Map.get` of the `allFolders` map. -/
def getM : List (String × FolderTreeNode) → String → Option FolderTreeNode
  | [], _ => none
  | p :: rest, k => if p.1 = k then some p.2 else getM rest k

mutual
/-- `flattenTree` (App.tsx 1516–1521): preorder walk that inserts every node
into `allFolders` keyed by its `_id`, recursing into `children`. -/
def flattenNode : FolderTreeNode → List (String × FolderTreeNode) →
    List (String × FolderTreeNode)
  | ⟨i, cs⟩, m => flattenForest cs (setM m i ⟨i, cs⟩)
def flattenForest : List FolderTreeNode → List (String × FolderTreeNode) →
    List (String × FolderTreeNode)
  | [], m => m
  | t :: ts, m => flattenForest ts (flattenNode t m)
end

def flattenTree (nodes : List FolderTreeNode) : List (String × FolderTreeNode) :=
  flattenForest nodes []

/-- The `while (queue.length > 0)` loop (App.tsx 1524–1533).  The loop reads
only `_id` from each queue entry (both the seeded `DriveItem`s and the
pushed child nodes), so the worklist is a list of ids; `disabled` is the
insertion-ordered `Set`.  `fuel` bounds the iteration count, which the
source leaves unbounded; it runs out only on snapshots the source would
loop on forever. -/
def bfsLoop (m : List (String × FolderTreeNode)) :
    Nat → List String → List String → Option (List String)
  | _, [], d => some d
  | 0, _ :: _, _ => none
  | fuel + 1, x :: q, d =>
    let d' := if x ∈ d then d else d ++ [x]
    let q' := match getM m x with
      | some n => q ++ n.children.map FolderTreeNode._id
      | none => q
    bfsLoop m fuel q' d'

/-- `Modals.getDisabledIds` (App.tsx 1505–1535): keep only the folders of
the move batch (files contribute nothing); if none remain the set is empty;
otherwise flatten the snapshot into `allFolders` and run the combined
breadth-first traversal seeded with all moved folder ids. -/
def getDisabledIds (items : List DriveItem) (folderTree : List FolderTreeNode)
    (fuel : Nat) : Option (List String) :=
  let folderItems := items.filter fun i => i.type == ItemType.folder
  if folderItems.isEmpty then some []
  else bfsLoop (flattenTree folderTree) fuel (folderItems.map DriveItem._id) []

/-- Specification-side definition, following §4.4 of the spec word for
word: for each folder of the batch, a breadth-first traversal of the
snapshot from that folder's node collects every visited id (the starting
folder's own id included — also when its node is absent from the snapshot);
the result is the union across the moved folders, files contributing
nothing.  The visited-id set of a traversal from a node is exactly the id
list of its subtree. -/
def computeDisabledTargets (items : List DriveItem)
    (forest : List FolderTreeNode) : List String :=
  (items.filter fun i => i.type == ItemType.folder).flatMap fun i =>
    match findForest forest i._id with
    | some n => treeIds n
    | none => [i._id]

/-- Cost one traversal step charges a worklist id: the size of its subtree
when the id resolves in the snapshot, 1 otherwise. -/
def contribSize (forest : List FolderTreeNode) (x : String) : Nat :=
  match findForest forest x with
  | some n => treeSize n
  | none => 1

/-- Ids one worklist id eventually contributes. -/
def contribIds (forest : List FolderTreeNode) (x : String) : List String :=
  match findForest forest x with
  | some n => treeIds n
  | none => [x]

/-- Total remaining work of a BFS worklist: enough fuel for the whole loop. -/
def bfsMeasure (forest : List FolderTreeNode) (q : List String) : Nat :=
  (q.map (contribSize forest)).sum

theorem forestSize_cons (i : String) (cs ts : List FolderTreeNode) :
    forestSize (⟨i, cs⟩ :: ts) = 1 + forestSize cs + forestSize ts := by
  have h1 : forestSize (⟨i, cs⟩ :: ts) = treeSize ⟨i, cs⟩ + forestSize ts := by
    simp [forestSize]
  have h2 : treeSize (⟨i, cs⟩ : FolderTreeNode) = 1 + forestSize cs := by
    simp [treeSize]
  omega

/-- Strong induction on the total size of a forest, giving the two
hypotheses a nested traversal needs: the children forest of the head and
the remaining siblings. -/
theorem forest_induction {P : List FolderTreeNode → Prop}
    (hnil : P [])
    (hcons : ∀ i cs ts, P cs → P ts → P (⟨i, cs⟩ :: ts)) :
    ∀ F, P F := by
  have main : ∀ n F, forestSize F ≤ n → P F := by
    intro n
    induction n with
    | zero =>
      intro F hF
      cases F with
      | nil => exact hnil
      | cons t ts =>
        obtain ⟨i, cs⟩ := t
        have := forestSize_cons i cs ts
        omega
    | succ n ih =>
      intro F hF
      cases F with
      | nil => exact hnil
      | cons t ts =>
        obtain ⟨i, cs⟩ := t
        have hsz := forestSize_cons i cs ts
        exact hcons i cs ts (ih cs (by omega)) (ih ts (by omega))
  intro F
  exact main (forestSize F) F (le_refl _)

theorem treeIds_mk (i : String) (cs : List FolderTreeNode) :
    treeIds ⟨i, cs⟩ = i :: forestIds cs := by
  simp [treeIds]

theorem forestIds_cons (t : FolderTreeNode) (ts : List FolderTreeNode) :
    forestIds (t :: ts) = treeIds t ++ forestIds ts := by
  simp [forestIds]

theorem treeSize_pos (t : FolderTreeNode) : 1 ≤ treeSize t := by
  obtain ⟨i, cs⟩ := t
  have : treeSize (⟨i, cs⟩ : FolderTreeNode) = 1 + forestSize cs := by simp [treeSize]
  omega

theorem findForest_eq_none :
    ∀ (F : List FolderTreeNode) (x : String), x ∉ forestIds F → findForest F x = none := by
  intro F
  induction F using forest_induction with
  | hnil => intro x _; rfl
  | hcons i cs ts ihcs ihts =>
    intro x hx
    rw [forestIds_cons, treeIds_mk] at hx
    simp only [List.cons_append, List.mem_cons, List.mem_append, not_or] at hx
    obtain ⟨hxi, hxcs, hxts⟩ := hx
    have h1 : findTree ⟨i, cs⟩ x = none := by
      simp only [findTree]
      rw [if_neg (fun h => hxi h.symm)]
      exact ihcs x hxcs
    simp only [findForest, h1]
    exact ihts x hxts

theorem findTree_eq_none (t : FolderTreeNode) (x : String) (h : x ∉ treeIds t) :
    findTree t x = none := by
  obtain ⟨i, cs⟩ := t
  rw [treeIds_mk, List.mem_cons, not_or] at h
  simp only [findTree]
  rw [if_neg (fun he => h.1 he.symm)]
  exact findForest_eq_none cs x h.2

theorem id_mem_treeIds (t : FolderTreeNode) : t._id ∈ treeIds t := by
  obtain ⟨i, cs⟩ := t
  rw [treeIds_mk]
  exact List.mem_cons_self i (forestIds cs)

theorem mem_forestIds_of_mem (F : List FolderTreeNode) (t : FolderTreeNode)
    (h : t ∈ F) : t._id ∈ forestIds F := by
  induction F with
  | nil => simp at h
  | cons s ts ih =>
    rw [forestIds_cons, List.mem_append]
    rcases List.mem_cons.mp h with rfl | h1
    · exact Or.inl (id_mem_treeIds t)
    · exact Or.inr (ih h1)

theorem child_id_mem_treeIds (n c : FolderTreeNode) (h : c ∈ n.children) :
    c._id ∈ treeIds n := by
  obtain ⟨i, cs⟩ := n
  rw [treeIds_mk]
  exact List.mem_cons_of_mem i (mem_forestIds_of_mem cs c h)

theorem mem_ids_of_findForest (F : List FolderTreeNode) (x : String)
    (n : FolderTreeNode) (h : findForest F x = some n) : x ∈ forestIds F := by
  by_contra hx
  rw [findForest_eq_none F x hx] at h
  exact Option.noConfusion h

theorem findForest_mem_self (F : List FolderTreeNode)
    (hnd : (forestIds F).Nodup) : ∀ c ∈ F, findForest F c._id = some c := by
  induction F with
  | nil => intro c hc; simp at hc
  | cons t ts ih =>
    intro c hc
    rw [forestIds_cons, List.nodup_append] at hnd
    obtain ⟨hnd1, hnd2, hdisj⟩ := hnd
    rcases List.mem_cons.mp hc with rfl | hc1
    · obtain ⟨i, cs⟩ := c
      simp [findForest, findTree]
    · have hcts : c._id ∈ forestIds ts := mem_forestIds_of_mem ts c hc1
      have hnone : findTree t c._id = none :=
        findTree_eq_none t c._id (fun hmem => hdisj hmem hcts)
      simp only [findForest, hnone]
      exact ih hnd2 c hc1

/-- Properties of a node the preorder search returns: it carries the
searched id, its subtree ids all lie in the forest, and — under unique ids
— each of its children is itself found by a search for its id. -/
theorem findForest_props :
    ∀ (F : List FolderTreeNode), (forestIds F).Nodup →
      ∀ x n, findForest F x = some n →
        n._id = x
        ∧ (∀ y ∈ treeIds n, y ∈ forestIds F)
        ∧ (∀ c ∈ n.children, findForest F c._id = some c) := by
  intro F
  induction F using forest_induction with
  | hnil => intro _ x n h; exact Option.noConfusion h
  | hcons i cs ts ihcs ihts =>
    intro hnd x n hfind
    have hnd' := hnd
    rw [forestIds_cons, treeIds_mk, List.cons_append, List.nodup_cons,
      List.nodup_append] at hnd'
    obtain ⟨hi, hndcs, hndts, hdisj⟩ := hnd'
    rw [List.mem_append, not_or] at hi
    obtain ⟨hics, hits⟩ := hi
    cases hft : findTree ⟨i, cs⟩ x with
    | some m =>
      have hnm : m = n := by
        simp only [findForest, hft] at hfind
        exact Option.some.inj hfind
      subst hnm
      by_cases hix : i = x
      · have hm : (⟨i, cs⟩ : FolderTreeNode) = m := by
          simp only [findTree, if_pos hix] at hft
          exact Option.some.inj hft
        subst hm
        refine ⟨hix, ?_, ?_⟩
        · intro y hy
          rw [forestIds_cons, List.mem_append]
          exact Or.inl hy
        · intro c hc
          have hcid : c._id ∈ forestIds cs := mem_forestIds_of_mem cs c hc
          have hic : ¬ i = c._id := fun h => hics (h ▸ hcid)
          have hf := findForest_mem_self cs hndcs c hc
          simp only [findForest, findTree, if_neg hic, hf]
      · have hf2 : findForest cs x = some m := by
          simp only [findTree, if_neg hix] at hft
          exact hft
        obtain ⟨h1, h2, h3⟩ := ihcs hndcs x m hf2
        refine ⟨h1, ?_, ?_⟩
        · intro y hy
          rw [forestIds_cons, treeIds_mk, List.cons_append, List.mem_cons,
            List.mem_append]
          exact Or.inr (Or.inl (h2 y hy))
        · intro c hc
          have hcm : c._id ∈ treeIds m := child_id_mem_treeIds m c hc
          have hccs : c._id ∈ forestIds cs := h2 c._id hcm
          have hic : ¬ i = c._id := fun h => hics (h ▸ hccs)
          have hf := h3 c hc
          simp only [findForest, findTree, if_neg hic, hf]
    | none =>
      have hf2 : findForest ts x = some n := by
        simp only [findForest, hft] at hfind
        exact hfind
      obtain ⟨h1, h2, h3⟩ := ihts hndts x n hf2
      refine ⟨h1, ?_, ?_⟩
      · intro y hy
        rw [forestIds_cons, List.mem_append]
        exact Or.inr (h2 y hy)
      · intro c hc
        have hcid : c._id ∈ forestIds ts := h2 c._id (child_id_mem_treeIds n c hc)
        have hnone : findTree ⟨i, cs⟩ c._id = none := by
          exact findTree_eq_none _ _ (fun hmem => by
            rw [treeIds_mk] at hmem
            rcases List.mem_cons.mp hmem with h | h
            · exact hits (h ▸ hcid)
            · exact hdisj h hcid)
        simp only [findForest, hnone]
        exact h3 c hc

theorem getM_setM_self (m : List (String × FolderTreeNode)) (k : String)
    (v : FolderTreeNode) : getM (setM m k v) k = some v := by
  induction m with
  | nil => simp [getM, setM]
  | cons p rest ih =>
    by_cases h : p.1 = k
    · simp [setM, h, getM]
    · simp [setM, h, getM, ih]

theorem getM_setM_ne (m : List (String × FolderTreeNode)) (k k' : String)
    (v : FolderTreeNode) (h : k' ≠ k) : getM (setM m k v) k' = getM m k' := by
  induction m with
  | nil => simp [getM, setM, Ne.symm h]
  | cons p rest ih =>
    by_cases hp : p.1 = k
    · simp [setM, hp, getM, Ne.symm h]
    · by_cases hp' : p.1 = k'
      · simp [setM, hp, getM, hp', h]
      · simp [setM, hp, getM, hp', ih]

/-- Under unique snapshot ids, the `allFolders` map built by `flattenTree`
answers exactly as the structural preorder search (with the accumulator as
fallback for ids outside the forest). -/
theorem flatten_getM :
    ∀ (F : List FolderTreeNode), (forestIds F).Nodup →
      ∀ (m : List (String × FolderTreeNode)) (x : String),
        getM (flattenForest F m) x =
          match findForest F x with
          | some n => some n
          | none => getM m x := by
  intro F
  induction F using forest_induction with
  | hnil => intro _ m x; rfl
  | hcons i cs ts ihcs ihts =>
    intro hnd m x
    have hnd' := hnd
    rw [forestIds_cons, treeIds_mk, List.cons_append, List.nodup_cons,
      List.nodup_append] at hnd'
    obtain ⟨hi, hndcs, hndts, hdisj⟩ := hnd'
    rw [List.mem_append, not_or] at hi
    obtain ⟨hics, hits⟩ := hi
    have hLHS : flattenForest (⟨i, cs⟩ :: ts) m
        = flattenForest ts (flattenForest cs (setM m i ⟨i, cs⟩)) := by
      simp [flattenForest, flattenNode]
    rw [hLHS, ihts hndts, ihcs hndcs]
    by_cases hix : i = x
    · subst hix
      have h1 : findForest ts i = none :=
        findForest_eq_none ts i hits
      have h2 : findForest cs i = none :=
        findForest_eq_none cs i hics
      have h3 : getM (setM m i ⟨i, cs⟩) i = some ⟨i, cs⟩ := getM_setM_self m i _
      simp [findForest, findTree, h1, h2, h3]
    · have h3 : getM (setM m i ⟨i, cs⟩) x = getM m x :=
        getM_setM_ne m i x _ (fun h => hix h.symm)
      cases hcs : findForest cs x with
      | some n =>
        have hxcs : x ∈ forestIds cs := mem_ids_of_findForest cs x n hcs
        have hts : findForest ts x = none :=
          findForest_eq_none ts x (fun hmem => hdisj hxcs hmem)
        simp [findForest, findTree, if_neg hix, hcs, hts]
      | none =>
        cases hts : findForest ts x with
        | some n => simp [findForest, findTree, if_neg hix, hcs, hts]
        | none => simp [findForest, findTree, if_neg hix, hcs, hts, h3]

theorem mem_forestIds_iff (F : List FolderTreeNode) (x : String) :
    x ∈ forestIds F ↔ ∃ t ∈ F, x ∈ treeIds t := by
  induction F with
  | nil => simp [forestIds]
  | cons t ts ih =>
    rw [forestIds_cons, List.mem_append, ih]
    constructor
    · rintro (h | ⟨s, hs, hx⟩)
      · exact ⟨t, List.mem_cons_self t ts, h⟩
      · exact ⟨s, List.mem_cons_of_mem t hs, hx⟩
    · rintro ⟨s, hs, hx⟩
      rcases List.mem_cons.mp hs with rfl | hs1
      · exact Or.inl hx
      · exact Or.inr ⟨s, hs1, hx⟩

theorem bfsMeasure_cons (forest : List FolderTreeNode) (y : String) (q : List String) :
    bfsMeasure forest (y :: q) = contribSize forest y + bfsMeasure forest q := by
  simp [bfsMeasure]

theorem bfsMeasure_append (forest : List FolderTreeNode) (q1 q2 : List String) :
    bfsMeasure forest (q1 ++ q2) = bfsMeasure forest q1 + bfsMeasure forest q2 := by
  simp [bfsMeasure]

theorem contribSize_pos (forest : List FolderTreeNode) (x : String) :
    1 ≤ contribSize forest x := by
  unfold contribSize
  cases h : findForest forest x with
  | none => exact le_refl 1
  | some n => exact treeSize_pos n

theorem bfsMeasure_children (forest : List FolderTreeNode) (l : List FolderTreeNode)
    (h : ∀ c ∈ l, findForest forest c._id = some c) :
    bfsMeasure forest (l.map FolderTreeNode._id) = forestSize l := by
  induction l with
  | nil => simp [bfsMeasure, forestSize]
  | cons c l ih =>
    have h1 : contribSize forest c._id = treeSize c := by
      simp [contribSize, h c (List.mem_cons_self c l)]
    have h2 := ih (fun c' hc' => h c' (List.mem_cons_of_mem c hc'))
    have h3 : forestSize (c :: l) = treeSize c + forestSize l := by simp [forestSize]
    rw [List.map_cons, bfsMeasure_cons, h1, h2, h3]

/-- Correctness of the combined worklist traversal: with enough fuel it
terminates, and it collects exactly the already-collected ids plus, for
each worklist id, the ids of the subtree that id resolves to (or the id
itself when it is absent from the snapshot). -/
theorem bfsLoop_spec (forest : List FolderTreeNode) (hnd : (forestIds forest).Nodup) :
    ∀ (fuel : Nat) (q d : List String),
      bfsMeasure forest q ≤ fuel →
      ∃ r, bfsLoop (flattenTree forest) fuel q d = some r
        ∧ ∀ x, x ∈ r ↔ (x ∈ d ∨ ∃ y ∈ q, x ∈ contribIds forest y) := by
  intro fuel
  induction fuel with
  | zero =>
    intro q d hm
    cases q with
    | nil => exact ⟨d, rfl, by simp⟩
    | cons y q' =>
      have h1 := contribSize_pos forest y
      have h2 := bfsMeasure_cons forest y q'
      omega
  | succ fuel ih =>
    intro q d hm
    cases q with
    | nil => exact ⟨d, rfl, by simp⟩
    | cons y q' =>
      have hget : getM (flattenTree forest) y =
          match findForest forest y with
          | some n => some n
          | none => none := by
        rw [show flattenTree forest = flattenForest forest [] from rfl,
          flatten_getM forest hnd]
        cases findForest forest y <;> rfl
      have hd' : ∀ x, x ∈ (if y ∈ d then d else d ++ [y]) ↔ x ∈ d ∨ x = y := by
        intro x
        by_cases h : y ∈ d
        · rw [if_pos h]
          constructor
          · exact Or.inl
          · rintro (h1 | rfl)
            · exact h1
            · exact h
        · rw [if_neg h]
          simp [List.mem_append]
      cases hfy : findForest forest y with
      | some n =>
        have hget2 : getM (flattenTree forest) y = some n := by rw [hget, hfy]
        obtain ⟨hnid, hsub, hchild⟩ := findForest_props forest hnd y n hfy
        have hchildsz := bfsMeasure_children forest n.children hchild
        have e2 := bfsMeasure_cons forest y q'
        have e3 : contribSize forest y = treeSize n := by simp [contribSize, hfy]
        have e4 : treeSize n = 1 + forestSize n.children := by
          obtain ⟨i', cs'⟩ := n
          simp [treeSize]
        have hm' : bfsMeasure forest (q' ++ n.children.map FolderTreeNode._id)
            ≤ fuel := by
          rw [bfsMeasure_append, hchildsz]
          omega
        obtain ⟨r, hr, hiff⟩ := ih (q' ++ n.children.map FolderTreeNode._id)
          (if y ∈ d then d else d ++ [y]) hm'
        have hyids : contribIds forest y = treeIds n := by simp [contribIds, hfy]
        refine ⟨r, ?_, ?_⟩
        · simp only [bfsLoop, hget2]
          exact hr
        · intro x
          rw [hiff x]
          constructor
          · rintro (hxd | ⟨z, hz, hxz⟩)
            · rcases (hd' x).mp hxd with h1 | h2
              · exact Or.inl h1
              · refine Or.inr ⟨y, List.mem_cons_self y q', ?_⟩
                rw [hyids, h2, ← hnid]
                exact id_mem_treeIds n
            · rcases List.mem_append.mp hz with h1 | h1
              · exact Or.inr ⟨z, List.mem_cons_of_mem y h1, hxz⟩
              · obtain ⟨c, hc, rfl⟩ := List.mem_map.mp h1
                have hcf := hchild c hc
                have hzc : contribIds forest c._id = treeIds c := by
                  simp [contribIds, hcf]
                rw [hzc] at hxz
                refine Or.inr ⟨y, List.mem_cons_self y q', ?_⟩
                rw [hyids]
                obtain ⟨i', cs'⟩ := n
                rw [treeIds_mk]
                refine List.mem_cons_of_mem i' ?_
                rw [mem_forestIds_iff]
                exact ⟨c, hc, hxz⟩
          · rintro (hxd | ⟨z, hz, hxz⟩)
            · exact Or.inl ((hd' x).mpr (Or.inl hxd))
            · rcases List.mem_cons.mp hz with rfl | h1
              · rw [hyids] at hxz
                have hids2 : treeIds n = n._id :: forestIds n.children := by
                  obtain ⟨i', cs'⟩ := n
                  rw [treeIds_mk]
                rw [hids2, List.mem_cons] at hxz
                rcases hxz with h2 | h2
                · exact Or.inl ((hd' x).mpr (Or.inr (h2.trans hnid)))
                · rw [mem_forestIds_iff] at h2
                  obtain ⟨c, hc, hxc⟩ := h2
                  have hcf := hchild c hc
                  refine Or.inr ⟨c._id,
                    List.mem_append.mpr (Or.inr (List.mem_map_of_mem _ hc)), ?_⟩
                  have : contribIds forest c._id = treeIds c := by
                    simp [contribIds, hcf]
                  rw [this]
                  exact hxc
              · exact Or.inr ⟨z, List.mem_append.mpr (Or.inl h1), hxz⟩
      | none =>
        have hget2 : getM (flattenTree forest) y = none := by rw [hget, hfy]
        have e2 := bfsMeasure_cons forest y q'
        have e3 : contribSize forest y = 1 := by simp [contribSize, hfy]
        have hm' : bfsMeasure forest q' ≤ fuel := by omega
        obtain ⟨r, hr, hiff⟩ := ih q' (if y ∈ d then d else d ++ [y]) hm'
        have hyids : contribIds forest y = [y] := by simp [contribIds, hfy]
        refine ⟨r, ?_, ?_⟩
        · simp only [bfsLoop, hget2]
          exact hr
        · intro x
          rw [hiff x]
          constructor
          · rintro (hxd | ⟨z, hz, hxz⟩)
            · rcases (hd' x).mp hxd with h1 | h2
              · exact Or.inl h1
              · refine Or.inr ⟨y, List.mem_cons_self y q', ?_⟩
                rw [hyids, h2]
                exact List.mem_singleton.mpr rfl
            · exact Or.inr ⟨z, List.mem_cons_of_mem y hz, hxz⟩
          · rintro (hxd | ⟨z, hz, hxz⟩)
            · exact Or.inl ((hd' x).mpr (Or.inl hxd))
            · rcases List.mem_cons.mp hz with rfl | h1
              · rw [hyids] at hxz
                exact Or.inl ((hd' x).mpr (Or.inr (List.mem_singleton.mp hxz)))
              · exact Or.inr ⟨z, h1, hxz⟩

/-- C4: folder-tree guard.  For every snapshot with unique ids and every
move batch, `getDisabledIds` (run with enough fuel for its unbounded
`while` loop) terminates and returns exactly the set
`computeDisabledTargets` prescribes: the union, over the folders of the
batch (files contributing nothing), of the ids collected by a
breadth-first traversal from that folder's node, the starting folder's own
id included. -/
theorem getDisabledIds_eq_computeDisabledTargets (items : List DriveItem)
    (folderTree : List FolderTreeNode) (fuel : Nat)
    (hnd : (forestIds folderTree).Nodup)
    (hfuel : bfsMeasure folderTree
        ((items.filter fun i => i.type == ItemType.folder).map DriveItem._id) ≤ fuel) :
    ∃ d, getDisabledIds items folderTree fuel = some d
      ∧ ∀ x, x ∈ d ↔ x ∈ computeDisabledTargets items folderTree := by
  by_cases hempty : (items.filter fun i => i.type == ItemType.folder).isEmpty = true
  · refine ⟨[], ?_, ?_⟩
    · simp only [getDisabledIds, hempty, if_true]
    · intro x
      have h0 : (items.filter fun i => i.type == ItemType.folder) = [] :=
        List.isEmpty_iff.mp hempty
      simp [computeDisabledTargets, h0]
  · obtain ⟨r, hr, hiff⟩ := bfsLoop_spec folderTree hnd fuel
      ((items.filter fun i => i.type == ItemType.folder).map DriveItem._id) [] hfuel
    refine ⟨r, ?_, ?_⟩
    · simp only [getDisabledIds, hempty, if_false]
      exact hr
    · intro x
      rw [hiff x]
      simp only [List.not_mem_nil, false_or]
      constructor
      · rintro ⟨z, hz, hxz⟩
        obtain ⟨i, hi, rfl⟩ := List.mem_map.mp hz
        simp only [computeDisabledTargets, List.mem_flatMap]
        exact ⟨i, hi, hxz⟩
      · intro hx
        simp only [computeDisabledTargets, List.mem_flatMap] at hx
        obtain ⟨i, hi, hxi⟩ := hx
        exact ⟨i._id, List.mem_map_of_mem DriveItem._id hi, hxi⟩

/-- Witness for C4, the example of the claim: snapshot
`root:[F1[F2[]], F3[]]` with moved batch `[F1]` gives exactly `{F1, F2}`;
`F3` and the root stay enabled. -/
theorem getDisabledIds_eq_computeDisabledTargets_witness :
    (∃ d, getDisabledIds [⟨"F1", .folder⟩]
        [⟨"root", [⟨"F1", [⟨"F2", []⟩]⟩, ⟨"F3", []⟩]⟩] 2 = some d
      ∧ ∀ x, x ∈ d ↔ x ∈ computeDisabledTargets [⟨"F1", .folder⟩]
          [⟨"root", [⟨"F1", [⟨"F2", []⟩]⟩, ⟨"F3", []⟩]⟩])
    ∧ getDisabledIds [⟨"F1", .folder⟩]
        [⟨"root", [⟨"F1", [⟨"F2", []⟩]⟩, ⟨"F3", []⟩]⟩] 2 = some ["F1", "F2"]
    ∧ ("F3" : String) ∉ ["F1", "F2"] ∧ ("root" : String) ∉ ["F1", "F2"] :=
  ⟨getDisabledIds_eq_computeDisabledTargets [⟨"F1", .folder⟩]
      [⟨"root", [⟨"F1", [⟨"F2", []⟩]⟩, ⟨"F3", []⟩]⟩] 2 (by decide) (by decide),
    rfl, by decide, by decide⟩

end NetraDrive
